import Mathlib

/-
  Verification of the dynamicxx variant-value library.

  The embedding follows the complete header revision of the repository
  (the `BasicDynamic` template with alternatives Null, Boolean, Integer,
  Number, String, Blob, Array, Object, Undefined; owned wrapper
  `detail::Just` and shared wrapper `std::shared_ptr`).  A value (`Impl`)
  is a pair of a raw discriminator (`TagRepr`, a 32-bit unsigned value,
  modelled as `Nat`) and a payload; the payload models the live member of
  the C++ `union Payload`.  Operations dispatch on the discriminator
  exactly as the `switch` statements of the source do, and an attempt to
  read a union member other than the live one — undefined behavior in the
  source — is modelled as the error `Err.undefinedBehavior`.
-/

namespace Dynamicxx

/-- Model of an IEEE-754 `double` value as stored in a `Number`
alternative: NaN, one of the two infinities, or an exact finite value.
The library performs no arithmetic on numbers, so the exact finite values
are represented as rationals. -/
inductive F64 where
  | nan : F64
  | inf : F64
  | neginf : F64
  | fin (q : ℚ) : F64
deriving DecidableEq, Repr

/-- IEEE-754 `==` on doubles: NaN compares unequal to everything,
including itself; other values compare by value. -/
def F64.feq : F64 → F64 → Bool
  | .nan, _ => false
  | _, .nan => false
  | .inf, .inf => true
  | .neginf, .neginf => true
  | .fin a, .fin b => a == b
  | _, _ => false

theorem F64.feq_symm (a b : F64) : F64.feq a b = F64.feq b a := by
  cases a <;> cases b <;> simp [F64.feq, BEq.comm]

/-- NaN-freeness of a double. -/
def F64.notNan : F64 → Bool
  | .nan => false
  | _ => true

theorem F64.feq_refl (a : F64) (h : a.notNan = true) : F64.feq a a = true := by
  cases a <;> simp_all [F64.feq, F64.notNan]

/-! ### Discriminator values

`enum struct Tag : std::uint32_t { Null = 0, Boolean, Integer, Number,
String, Blob, Array, Object, Undefined = ~uint32_t(0) }`. -/

def tagNull : Nat := 0

def tagBoolean : Nat := 1

def tagInteger : Nat := 2

def tagNumber : Nat := 3

def tagString : Nat := 4

def tagBlob : Nat := 5

def tagArray : Nat := 6

def tagObject : Nat := 7

/-- `Tag::Undefined = ~static_cast<TagRepr>(0)`, i.e. `2 ^ 32 - 1`. -/
def tagUndefined : Nat := 4294967295

/-- The live member of `union Payload`.  `Array` elements and `Object`
mapped values are nested `BasicDynamic` values, i.e. discriminator/payload
pairs (for the owned wrapper `detail::Just`, a `BasicDynamic` is exactly
an `Impl`). -/
inductive Payload where
  | null : Payload
  | boolean (b : Bool) : Payload
  | integer (i : ℤ) : Payload
  | number (x : F64) : Payload
  | string (s : String) : Payload
  | blob (bs : List Nat) : Payload
  | array (elems : List (Nat × Payload)) : Payload
  | object (entries : List (String × Nat × Payload)) : Payload
  | undefined : Payload

/-- An `Impl`: the raw discriminator together with the payload region. -/
abbrev Impl := Nat × Payload

/-- Discriminator of the given payload constructor, `TagOf<Type>()`. -/
def tagOfP : Payload → Nat
  | .null => tagNull
  | .boolean _ => tagBoolean
  | .integer _ => tagInteger
  | .number _ => tagNumber
  | .string _ => tagString
  | .blob _ => tagBlob
  | .array _ => tagArray
  | .object _ => tagObject
  | .undefined => tagUndefined

/-- A freshly default-constructed `Impl`: `tag_ = Tag::Undefined`, the
`undefined` member live. -/
def undefImpl : Impl := (tagUndefined, Payload.undefined)

/-- Place a payload with its matching discriminator,
`EmplaceRaw<Type>(args...)`. -/
def mkP (p : Payload) : Impl := (tagOfP p, p)

/-- Key uniqueness of an object entry list, the `unordered_map` key
invariant. -/
def nodupKeys : List (String × Nat × Payload) → Bool
  | [] => true
  | (k, _) :: rest => !(rest.any (fun e => e.1 == k)) && nodupKeys rest

mutual

/-- The central invariant on a payload: every nested value has its
discriminator agreeing with its live member, and object keys are unique. -/
def wfP : Payload → Bool
  | .array es => wfArr es
  | .object os => nodupKeys os && wfObj os
  | _ => true

/-- Invariant for the elements of an `Array` payload. -/
def wfArr : List (Nat × Payload) → Bool
  | [] => true
  | (t, p) :: rest => (t == tagOfP p) && wfP p && wfArr rest

/-- Invariant for the entries of an `Object` payload. -/
def wfObj : List (String × Nat × Payload) → Bool
  | [] => true
  | (_, t, p) :: rest => (t == tagOfP p) && wfP p && wfObj rest

end

/-- The central invariant on a value: the discriminator agrees with the
live payload member, recursively. -/
def wfI (v : Impl) : Bool := (v.1 == tagOfP v.2) && wfP v.2

mutual

/-- No `Number` anywhere inside the payload is NaN. -/
def nanFreeP : Payload → Bool
  | .number x => x.notNan
  | .array es => nanFreeArr es
  | .object os => nanFreeObj os
  | _ => true

/-- NaN-freeness of array elements. -/
def nanFreeArr : List (Nat × Payload) → Bool
  | [] => true
  | (_, p) :: rest => nanFreeP p && nanFreeArr rest

/-- NaN-freeness of object entries. -/
def nanFreeObj : List (String × Nat × Payload) → Bool
  | [] => true
  | (_, _, p) :: rest => nanFreeP p && nanFreeObj rest

end

/-! ### Error outcomes

The source reports failures as C++ exceptions; an operation that throws
is modelled as returning `Except.error`.  Reaching an out-of-contract
standard-library operation or reading a dead union member — undefined
behavior in the source — is modelled as `undefinedBehavior`. -/

/-- Outcome of a failing operation. -/
inductive Err where
  | invalidAccess : Err
  | invalidTag : Err
  | outOfRange : Err
  | undefinedBehavior : Err
  | outOfFuel : Err
deriving DecidableEq, Repr

/-- Whether the raw discriminator is one of the nine known tags. -/
def knownTag (t : Nat) : Bool :=
  (t == tagNull) || (t == tagBoolean) || (t == tagInteger) || (t == tagNumber) ||
  (t == tagString) || (t == tagBlob) || (t == tagArray) || (t == tagObject) ||
  (t == tagUndefined)

/-- `Impl::DestroyIfNeeded()`: switches on the discriminator, runs the
selected member's destructor, and sets the discriminator to
`Tag::Undefined`; a discriminator outside the known set reaches
`ThrowInvalidTerminatingTag`. -/
def destroyIfNeeded (v : Impl) : Except Err Impl :=
  if knownTag v.1 then .ok undefImpl else .error .invalidTag

/-- `Impl::Emplace<Type>(args...)`: destroy the current payload, then
construct the new payload in place and set its discriminator. -/
def emplace (v : Impl) (p : Payload) : Except Err Impl := do
  let _ ← destroyIfNeeded v
  pure (mkP p)

/-- `BasicDynamic::From<Type>(args...)`: default-construct (Undefined),
then `Emplace`. -/
def fromP (p : Payload) : Except Err Impl := emplace undefImpl p

/-! ### Union member accessors

Reading `payload_.member` is only defined when that member is live; a
mismatched read is undefined behavior. -/

/-- Read the `boolean` member of the union. -/
def Payload.asBoolean : Payload → Except Err Bool
  | .boolean b => .ok b
  | _ => .error .undefinedBehavior

/-- Read the `integer` member of the union. -/
def Payload.asInteger : Payload → Except Err ℤ
  | .integer i => .ok i
  | _ => .error .undefinedBehavior

/-- Read the `number` member of the union. -/
def Payload.asNumber : Payload → Except Err F64
  | .number x => .ok x
  | _ => .error .undefinedBehavior

/-- Read the `string` member of the union. -/
def Payload.asString : Payload → Except Err String
  | .string s => .ok s
  | _ => .error .undefinedBehavior

/-- Read the `blob` member of the union. -/
def Payload.asBlob : Payload → Except Err (List Nat)
  | .blob bs => .ok bs
  | _ => .error .undefinedBehavior

/-- Read the `array` member of the union. -/
def Payload.asArray : Payload → Except Err (List (Nat × Payload))
  | .array es => .ok es
  | _ => .error .undefinedBehavior

/-- Read the `object` member of the union. -/
def Payload.asObject : Payload → Except Err (List (String × Nat × Payload))
  | .object os => .ok os
  | _ => .error .undefinedBehavior

/-- `Impl::MoveRaw(that)`: copies the discriminator, switches on it to
move-construct the matching member (the `Null` and `Undefined` cases
construct nothing), a stray discriminator reaches
`ThrowInvalidTerminatingTag`; finally `that.DestroyIfNeeded()` leaves the
source Undefined.  Container members are moved wholesale (buffer steal),
so the payload carries over unchanged.  Returns (destination, source). -/
def moveRaw (src : Impl) : Except Err (Impl × Impl) :=
  if src.1 == tagNull then .ok ((tagNull, .null), undefImpl)
  else if src.1 == tagBoolean then do
    let b ← src.2.asBoolean
    pure ((tagBoolean, .boolean b), undefImpl)
  else if src.1 == tagInteger then do
    let i ← src.2.asInteger
    pure ((tagInteger, .integer i), undefImpl)
  else if src.1 == tagNumber then do
    let x ← src.2.asNumber
    pure ((tagNumber, .number x), undefImpl)
  else if src.1 == tagString then do
    let s ← src.2.asString
    pure ((tagString, .string s), undefImpl)
  else if src.1 == tagBlob then do
    let bs ← src.2.asBlob
    pure ((tagBlob, .blob bs), undefImpl)
  else if src.1 == tagArray then do
    let es ← src.2.asArray
    pure ((tagArray, .array es), undefImpl)
  else if src.1 == tagObject then do
    let os ← src.2.asObject
    pure ((tagObject, .object os), undefImpl)
  else if src.1 == tagUndefined then .ok ((tagUndefined, .undefined), undefImpl)
  else .error .invalidTag

/-- Move construction `Impl(Impl&& that)`: `MoveRaw` into a fresh value. -/
def moveConstruct (src : Impl) : Except Err (Impl × Impl) := moveRaw src

/-- Move assignment: `DestroyIfNeeded()` on the destination, then
`MoveRaw(that)`. -/
def moveAssign (dst src : Impl) : Except Err (Impl × Impl) := do
  let _ ← destroyIfNeeded dst
  moveRaw src

mutual

/-- `Impl::CopyRaw(that)`: copies the discriminator, switches on it to
copy-construct the matching member (the `Null` and `Undefined` cases
construct nothing); copying an `Array` or `Object` member copy-constructs
the container, which copy-constructs every nested value, recursively
entering `CopyRaw`.  A stray discriminator reaches
`ThrowInvalidTerminatingTag`. -/
def copyRaw : Impl → Except Err Impl
  | (t, p) =>
    if t == tagNull then .ok (tagNull, .null)
    else if t == tagBoolean then
      match p with
      | .boolean b => .ok (tagBoolean, .boolean b)
      | _ => .error .undefinedBehavior
    else if t == tagInteger then
      match p with
      | .integer i => .ok (tagInteger, .integer i)
      | _ => .error .undefinedBehavior
    else if t == tagNumber then
      match p with
      | .number x => .ok (tagNumber, .number x)
      | _ => .error .undefinedBehavior
    else if t == tagString then
      match p with
      | .string s => .ok (tagString, .string s)
      | _ => .error .undefinedBehavior
    else if t == tagBlob then
      match p with
      | .blob bs => .ok (tagBlob, .blob bs)
      | _ => .error .undefinedBehavior
    else if t == tagArray then
      match p with
      | .array es => do
        let es2 ← copyArr es
        pure (tagArray, .array es2)
      | _ => .error .undefinedBehavior
    else if t == tagObject then
      match p with
      | .object os => do
        let os2 ← copyObj os
        pure (tagObject, .object os2)
      | _ => .error .undefinedBehavior
    else if t == tagUndefined then .ok (tagUndefined, .undefined)
    else .error .invalidTag
termination_by v => sizeOf v

/-- Elementwise copy construction of an `Array` member's elements. -/
def copyArr : List (Nat × Payload) → Except Err (List (Nat × Payload))
  | [] => .ok []
  | e :: rest => do
    let e2 ← copyRaw e
    let rest2 ← copyArr rest
    pure (e2 :: rest2)
termination_by xs => sizeOf xs

/-- Entrywise copy construction of an `Object` member's entries. -/
def copyObj : List (String × Nat × Payload) → Except Err (List (String × Nat × Payload))
  | [] => .ok []
  | (k, e) :: rest => do
    let e2 ← copyRaw e
    let rest2 ← copyObj rest
    pure ((k, e2) :: rest2)
termination_by xs => sizeOf xs

end

/-- Copy construction `Impl(const Impl& that)`: `CopyRaw` into a fresh
value. -/
def copyConstruct (src : Impl) : Except Err Impl := copyRaw src

/-- Copy assignment: `DestroyIfNeeded()` on the destination, then
`CopyRaw(that)`. -/
def copyAssign (dst src : Impl) : Except Err Impl := do
  let _ ← destroyIfNeeded dst
  copyRaw src

mutual

/-- `Impl::Clone()`: switches on the discriminator; scalar alternatives
are copied, `Array` and `Object` are rebuilt entry by entry with every
nested value cloned recursively; a stray discriminator reaches
`ThrowInvalidTerminatingTag`. -/
def cloneI : Impl → Except Err Impl
  | (t, p) =>
    if t == tagNull then .ok (tagNull, .null)
    else if t == tagBoolean then
      match p with
      | .boolean b => .ok (tagBoolean, .boolean b)
      | _ => .error .undefinedBehavior
    else if t == tagInteger then
      match p with
      | .integer i => .ok (tagInteger, .integer i)
      | _ => .error .undefinedBehavior
    else if t == tagNumber then
      match p with
      | .number x => .ok (tagNumber, .number x)
      | _ => .error .undefinedBehavior
    else if t == tagString then
      match p with
      | .string s => .ok (tagString, .string s)
      | _ => .error .undefinedBehavior
    else if t == tagBlob then
      match p with
      | .blob bs => .ok (tagBlob, .blob bs)
      | _ => .error .undefinedBehavior
    else if t == tagArray then
      match p with
      | .array es => do
        let es2 ← cloneArr es
        pure (tagArray, .array es2)
      | _ => .error .undefinedBehavior
    else if t == tagObject then
      match p with
      | .object os => do
        let os2 ← cloneObj os
        pure (tagObject, .object os2)
      | _ => .error .undefinedBehavior
    else if t == tagUndefined then .ok (tagUndefined, .undefined)
    else .error .invalidTag
termination_by v => sizeOf v

/-- Clone of the elements of an `Array` member, in order. -/
def cloneArr : List (Nat × Payload) → Except Err (List (Nat × Payload))
  | [] => .ok []
  | e :: rest => do
    let e2 ← cloneI e
    let rest2 ← cloneArr rest
    pure (e2 :: rest2)
termination_by xs => sizeOf xs

/-- Clone of the entries of an `Object` member: each source entry is
inserted into the fresh map with its mapped value cloned. -/
def cloneObj : List (String × Nat × Payload) → Except Err (List (String × Nat × Payload))
  | [] => .ok []
  | (k, e) :: rest => do
    let e2 ← cloneI e
    let rest2 ← cloneObj rest
    pure ((k, e2) :: rest2)
termination_by xs => sizeOf xs

end

/-- The scalar cases of the `Impl::Equals` switch (every case except
`Array` and `Object`): `Null` and `Undefined` compare equal
unconditionally, `Boolean`/`Integer`/`String`/`Blob` use value equality,
`Number` uses IEEE `==`; a stray discriminator reaches
`ThrowInvalidTerminatingTag`. -/
def scalarEq (t : Nat) (pa pb : Payload) : Except Err Bool :=
  if t == tagNull then .ok true
  else if t == tagBoolean then
    match pa with
    | .boolean x => do
      let y ← pb.asBoolean
      pure (x == y)
    | _ => .error .undefinedBehavior
  else if t == tagInteger then
    match pa with
    | .integer x => do
      let y ← pb.asInteger
      pure (x == y)
    | _ => .error .undefinedBehavior
  else if t == tagNumber then
    match pa with
    | .number x => do
      let y ← pb.asNumber
      pure (F64.feq x y)
    | _ => .error .undefinedBehavior
  else if t == tagString then
    match pa with
    | .string x => do
      let y ← pb.asString
      pure (x == y)
    | _ => .error .undefinedBehavior
  else if t == tagBlob then
    match pa with
    | .blob x => do
      let y ← pb.asBlob
      pure (x == y)
    | _ => .error .undefinedBehavior
  else if t == tagUndefined then .ok true
  else .error .invalidTag

mutual

/-- `BasicDynamic::Equals(rhs)` composed with `Impl::Equals`: mismatched
discriminators compare unequal without error; with matching
discriminators the switch on the discriminator compares the live
members — the recursive `Array` and `Object` cases are dispatched here
and every other case in `scalarEq`, which together cover the
source's switch exactly. -/
def dynEq : Impl → Impl → Except Err Bool
  | (ta, pa), b =>
    if ta != b.1 then .ok false
    else if ta == tagArray then
      match pa with
      | .array xs => do
        let ys ← b.2.asArray
        if xs.length == ys.length then arrEq xs ys else pure false
      | _ => .error .undefinedBehavior
    else if ta == tagObject then
      match pa with
      | .object xs => do
        let ys ← b.2.asObject
        if xs.length == ys.length then objAll xs ys else pure false
      | _ => .error .undefinedBehavior
    else scalarEq ta pa b.2
termination_by a _ => (sizeOf a, 0)

/-- `std::vector` equality on array elements: pairwise, in order (the
size comparison has already been performed). -/
def arrEq : List (Nat × Payload) → List (Nat × Payload) → Except Err Bool
  | [], _ => .ok true
  | _, [] => .ok true
  | x :: xs, y :: ys => do
    let r ← dynEq x y
    if r then arrEq xs ys else pure false
termination_by xs _ => (sizeOf xs, 0)

/-- `std::unordered_map` equality, left to right: every entry of the
left map must have an entry with the same key and an equal mapped value
in the right map (order-independent). -/
def objAll : List (String × Nat × Payload) → List (String × Nat × Payload) → Except Err Bool
  | [], _ => .ok true
  | (k, v) :: xs, ys => do
    let r ← objFind k v ys
    if r then objAll xs ys else pure false
termination_by xs _ => (sizeOf xs, 0)

/-- Search the right-hand map for the key and compare mapped values. -/
def objFind (k : String) (v : Nat × Payload) :
    List (String × Nat × Payload) → Except Err Bool
  | [] => .ok false
  | (k2, w) :: rest => if k == k2 then dynEq v w else objFind k v rest
termination_by ys => (sizeOf v + 1, sizeOf ys)

end

/-! ### Key dispatch helpers

`DefaultToIndex` and `DefaultToString`, used by the dual-dispatch
`operator[]`. -/

/-- A generic key: an integer-like key or a text key. -/
inductive DKey where
  | kInt (i : ℤ) : DKey
  | kStr (s : String) : DKey
deriving DecidableEq, Repr

/-- Model of `std::stoul`: parse a leading run of digits; a string with
no leading digits throws `std::invalid_argument` out of a `noexcept`
member, which terminates the program. -/
def stoulModel (s : String) : Except Err Nat :=
  match (s.takeWhile Char.isDigit).toNat? with
  | some n => .ok n
  | none => .error .undefinedBehavior

/-- `DefaultToIndex::Convert`: arithmetic keys are `static_cast` to
`std::size_t` (a 64-bit unsigned conversion), text keys go through
`std::stoul`. -/
def toIndexKey : DKey → Except Err Nat
  | .kInt i => .ok ((i % (2 ^ 64 : ℤ)).toNat)
  | .kStr s => stoulModel s

/-- `DefaultToString::Convert<std::string>`: integer keys go through
`std::to_string`, text keys pass through unchanged. -/
def toStringKey : DKey → String
  | .kInt i => toString i
  | .kStr s => s

/-- Lookup of a key in an object entry list, `unordered_map::find`. -/
def lookupKey (k : String) : List (String × Nat × Payload) → Option Impl
  | [] => none
  | (k2, v) :: rest => if k == k2 then some v else lookupKey k rest

/-- `Impl::As<CastType>()`: discriminator check, then the member; a
mismatch throws `InvalidAccessException`. -/
def asArrayI (v : Impl) : Except Err (List (Nat × Payload)) :=
  if v.1 == tagArray then
    match v.2 with
    | .array es => .ok es
    | _ => .error .undefinedBehavior
  else .error .invalidAccess

/-- `Impl::As<Object>()` with the discriminator check. -/
def asObjectI (v : Impl) : Except Err (List (String × Nat × Payload)) :=
  if v.1 == tagObject then
    match v.2 with
    | .object os => .ok os
    | _ => .error .undefinedBehavior
  else .error .invalidAccess

/-- Mutable `operator[](key)` of the complete header, read path: when
holding Array the key is converted to an index and `vector::at`
bounds-checks it; when holding Object the key is converted to text and
`unordered_map::operator[]` looks it up, inserting a default (Undefined)
entry when absent; otherwise `InvalidAccess()`.  Returns the possibly
extended value together with the element read. -/
def indexMut (v : Impl) (k : DKey) : Except Err (Impl × Impl) :=
  if v.1 == tagArray then do
    let i ← toIndexKey k
    let es ← asArrayI v
    match es[i]? with
    | some e => pure (v, e)
    | none => .error .outOfRange
  else if v.1 == tagObject then do
    let key := toStringKey k
    let os ← asObjectI v
    match lookupKey key os with
    | some e => pure (v, e)
    | none => pure ((tagObject, .object (os ++ [(key, undefImpl)])), undefImpl)
  else .error .invalidAccess

/-- Const `operator[](key)` / checked lookup: when holding Array,
`vector::at`; when holding Object, `unordered_map::at`, which throws on a
missing key; otherwise `InvalidAccess()`. -/
def indexConst (v : Impl) (k : DKey) : Except Err Impl :=
  if v.1 == tagArray then do
    let i ← toIndexKey k
    let es ← asArrayI v
    match es[i]? with
    | some e => pure e
    | none => .error .outOfRange
  else if v.1 == tagObject then do
    let key := toStringKey k
    let os ← asObjectI v
    match lookupKey key os with
    | some e => pure e
    | none => .error .outOfRange
  else .error .invalidAccess

/-- `BasicDynamic::Push(value)`: `As<Array>()` (InvalidAccess when not
holding Array), then append `From<BestFit>(value)` at the end. -/
def pushP (v : Impl) (p : Payload) : Except Err Impl := do
  let es ← asArrayI v
  pure (tagArray, .array (es ++ [mkP p]))

/-- `BasicDynamic::Pop()`: `As<Array>()` (InvalidAccess when not holding
Array), then `back()` and `pop_back()`; both are out-of-contract on an
empty vector.  Returns the removed element and the shrunk value. -/
def popI (v : Impl) : Except Err (Impl × Impl) := do
  let es ← asArrayI v
  match es.getLast? with
  | some e => pure (e, (tagArray, .array es.dropLast))
  | none => .error .undefinedBehavior

/-- `BasicDynamic::Contains(key)`: `As<Object>()` (InvalidAccess when
not holding Object), then `find`. -/
def containsI (v : Impl) (k : String) : Except Err Bool := do
  let os ← asObjectI v
  pure (lookupKey k os).isSome

/-! ### The best-fit Type Resolver

`BestFitFor` is a compile-time function on types; the embedding works
over a universe of representative C++ argument types, with the traits
`std::is_integral`, `std::is_floating_point` and `std::is_constructible`
tabulated as they hold in C++ for the default instantiation
(`Integer = std::int64_t`, `Number = double`, `String = std::string`,
`Blob = std::vector<std::uint8_t>`, `Array = std::vector<Dynamic>`,
`Object = std::unordered_map<std::string, Dynamic>`). -/

/-- Representative input types at an assignment or `Push` call site. -/
inductive CxxType where
  | tBool : CxxType
  | tChar : CxxType
  | tInt : CxxType
  | tInt64 : CxxType
  | tUInt32 : CxxType
  | tSizeT : CxxType
  | tFloat : CxxType
  | tDouble : CxxType
  | tConstCharPtr : CxxType
  | tStdString : CxxType
  | tBlobVec : CxxType
  | tArrayVec : CxxType
  | tObjectMap : CxxType
deriving DecidableEq, Repr

/-- `std::is_same<bool, Type>` (after cv/ref stripping). -/
def isBoolT : CxxType → Bool
  | .tBool => true
  | _ => false

/-- `std::is_integral<Type>`; note `bool` and `char` are integral in
C++. -/
def isIntegralT : CxxType → Bool
  | .tBool | .tChar | .tInt | .tInt64 | .tUInt32 | .tSizeT => true
  | _ => false

/-- `std::is_floating_point<Type>`. -/
def isFloatingT : CxxType → Bool
  | .tFloat | .tDouble => true
  | _ => false

/-- `std::is_constructible<std::string, Type>`. -/
def constructibleString : CxxType → Bool
  | .tConstCharPtr | .tStdString => true
  | _ => false

/-- `std::is_constructible<std::vector<std::uint8_t>, Type>`: a copy
from another blob, or the explicit `vector(size_type)` constructor,
reachable from any arithmetic type. -/
def constructibleBlob : CxxType → Bool
  | .tBlobVec => true
  | .tBool | .tChar | .tInt | .tInt64 | .tUInt32 | .tSizeT => true
  | .tFloat | .tDouble => true
  | _ => false

/-- `std::is_constructible<std::vector<Dynamic>, Type>`: a copy from
another element vector, or the explicit `vector(size_type)`
constructor. -/
def constructibleArray : CxxType → Bool
  | .tArrayVec => true
  | .tBool | .tChar | .tInt | .tInt64 | .tUInt32 | .tSizeT => true
  | .tFloat | .tDouble => true
  | _ => false

/-- `std::is_constructible<std::unordered_map<std::string, Dynamic>,
Type>`: a copy from another map, or the explicit
`unordered_map(size_type)` bucket-count constructor. -/
def constructibleObject : CxxType → Bool
  | .tObjectMap => true
  | .tBool | .tChar | .tInt | .tInt64 | .tUInt32 | .tSizeT => true
  | .tFloat | .tDouble => true
  | _ => false

/-- The alternatives a foreign type can resolve to. -/
inductive Alt where
  | boolean : Alt
  | integer : Alt
  | number : Alt
  | string : Alt
  | blob : Alt
  | array : Alt
  | object : Alt
deriving DecidableEq, Repr

/-- Discriminator assigned when storing the given resolved
alternative. -/
def altTag : Alt → Nat
  | .boolean => tagBoolean
  | .integer => tagInteger
  | .number => tagNumber
  | .string => tagString
  | .blob => tagBlob
  | .array => tagArray
  | .object => tagObject

/-- `BestFitFor<Type>`: the nested `std::conditional` chain of the
complete header, in source order — exact `bool`, then integral, then
floating-point, then constructible into String, Blob, Array, Object;
`void` (no resolution) otherwise. -/
def bestFitFor (t : CxxType) : Option Alt :=
  if isBoolT t then some .boolean
  else if isIntegralT t then some .integer
  else if isFloatingT t then some .number
  else if constructibleString t then some .string
  else if constructibleBlob t then some .blob
  else if constructibleArray t then some .array
  else if constructibleObject t then some .object
  else none

/-- A typed argument value for generic assignment, `Push` and the
foreign-value equality overload. -/
inductive CxxVal where
  | cBool (b : Bool) : CxxVal
  | cChar (c : Nat) : CxxVal
  | cInt (i : ℤ) : CxxVal
  | cDouble (x : F64) : CxxVal
  | cCharPtr (s : String) : CxxVal
  | cString (s : String) : CxxVal
  | cBlob (bs : List Nat) : CxxVal
  | cArr (es : List (Nat × Payload)) : CxxVal
  | cObj (os : List (String × Nat × Payload)) : CxxVal

/-- Static type of an argument value. -/
def typeOfVal : CxxVal → CxxType
  | .cBool _ => .tBool
  | .cChar _ => .tChar
  | .cInt _ => .tInt64
  | .cDouble _ => .tDouble
  | .cCharPtr _ => .tConstCharPtr
  | .cString _ => .tStdString
  | .cBlob _ => .tBlobVec
  | .cArr _ => .tArrayVec
  | .cObj _ => .tObjectMap

/-- Construction `Type{value}` of the resolved alternative from the
argument: value-preserving numeric conversions and container copies. -/
def resolvePayload : CxxVal → Payload
  | .cBool b => .boolean b
  | .cChar c => .integer (c : ℤ)
  | .cInt i => .integer i
  | .cDouble x => .number x
  | .cCharPtr s => .string s
  | .cString s => .string s
  | .cBlob bs => .blob bs
  | .cArr es => .array es
  | .cObj os => .object os

/-- Container arguments must themselves satisfy the invariant. -/
def valWF : CxxVal → Bool
  | .cArr es => wfArr es
  | .cObj os => nodupKeys os && wfObj os
  | _ => true

/-- Generic assignment `operator=(value)`:
`Emplace<BestFitFor<Type>::type>(value)` — destroy whatever alternative
is active, then store the argument as the resolved alternative. -/
def assignVal (v : Impl) (x : CxxVal) : Except Err Impl :=
  emplace v (resolvePayload x)

/-- `BasicDynamic::Push(value)` with best-fit resolution of the pushed
argument. -/
def pushVal (v : Impl) (x : CxxVal) : Except Err Impl :=
  pushP v (resolvePayload x)

/-- Mutable `operator[](key)` followed by generic assignment through the
returned reference: the selected element is destroyed and re-emplaced as
the resolved alternative. -/
def indexAssign (v : Impl) (k : DKey) (x : CxxVal) : Except Err Impl :=
  if v.1 == tagArray then do
    let i ← toIndexKey k
    let es ← asArrayI v
    match es[i]? with
    | some e => do
      let e2 ← assignVal e x
      pure (tagArray, .array (es.set i e2))
    | none => .error .outOfRange
  else if v.1 == tagObject then do
    let key := toStringKey k
    let os ← asObjectI v
    match lookupKey key os with
    | some e => do
      let e2 ← assignVal e x
      pure (tagObject, .object (os.map (fun kv => if kv.1 == key then (kv.1, (e2 : Impl).1, (e2 : Impl).2) else kv)))
    | none => do
      let e2 ← assignVal undefImpl x
      pure (tagObject, .object (os ++ [(key, e2)]))
  else .error .invalidAccess

/-- `BasicDynamic::Equals(const Type&)`, the foreign-value overload:
resolve the argument's alternative; when the value does not currently
hold that alternative the comparison is `false`; otherwise `As<CastType>`
and the member `==`. -/
def equalsVal (v : Impl) (x : CxxVal) : Except Err Bool :=
  match bestFitFor (typeOfVal x) with
  | none => .error .invalidTag
  | some a =>
    if v.1 != altTag a then .ok false
    else
      match a with
      | .boolean => do let b ← v.2.asBoolean; match x with
        | .cBool c => pure (b == c)
        | _ => .error .undefinedBehavior
      | .integer => do let i ← v.2.asInteger; match x with
        | .cChar c => pure (i == (c : ℤ))
        | .cInt j => pure (i == j)
        | _ => .error .undefinedBehavior
      | .number => do let n ← v.2.asNumber; match x with
        | .cDouble y => pure (F64.feq n y)
        | _ => .error .undefinedBehavior
      | .string => do let s ← v.2.asString; match x with
        | .cCharPtr u => pure (s == u)
        | .cString u => pure (s == u)
        | _ => .error .undefinedBehavior
      | .blob => do let bs ← v.2.asBlob; match x with
        | .cBlob cs => pure (bs == cs)
        | _ => .error .undefinedBehavior
      | .array => do let es ← v.2.asArray; match x with
        | .cArr fs => if es.length == fs.length then arrEq es fs else pure false
        | _ => .error .undefinedBehavior
      | .object => do let os ← v.2.asObject; match x with
        | .cObj ps => if os.length == ps.length then objAll os ps else pure false
        | _ => .error .undefinedBehavior

/-! ### The Shared ownership strategy (`DynamicManaged`)

Under `ImplWrapper = std::shared_ptr`, a `BasicDynamic` holds a
`shared_ptr<Impl>`, so a value is an address into a heap of `Impl`
cells; nested values inside `Array` and `Object` payloads are themselves
addresses.  Copying a value copies the pointer (aliasing); `Clone()`
rebuilds the structure into freshly allocated cells. -/

/-- Payload of a heap cell: containers hold addresses of the nested
values' cells. -/
inductive MPayload where
  | null : MPayload
  | boolean (b : Bool) : MPayload
  | integer (i : ℤ) : MPayload
  | number (x : F64) : MPayload
  | string (s : String) : MPayload
  | blob (bs : List Nat) : MPayload
  | array (elems : List Nat) : MPayload
  | object (entries : List (String × Nat)) : MPayload
  | undefined : MPayload
deriving DecidableEq, Repr

/-- A heap cell: discriminator and payload. -/
abbrev MImpl := Nat × MPayload

/-- The heap of shared `Impl` cells; an address is an index. -/
abbrev Heap := List MImpl

/-- Discriminator matching the given heap-cell payload constructor. -/
def mTagOf : MPayload → Nat
  | .null => tagNull
  | .boolean _ => tagBoolean
  | .integer _ => tagInteger
  | .number _ => tagNumber
  | .string _ => tagString
  | .blob _ => tagBlob
  | .array _ => tagArray
  | .object _ => tagObject
  | .undefined => tagUndefined

/-- Every address stored in the payload is below the bound. -/
def mAddrsOk (bound : Nat) : MPayload → Bool
  | .array es => es.all (fun a => a < bound)
  | .object os => os.all (fun e => e.2 < bound)
  | _ => true

/-- Heap invariant: every cell has an agreeing discriminator and only
dangling-free addresses. -/
def wfHeap (h : Heap) : Bool :=
  h.all (fun c => (c.1 == mTagOf c.2) && mAddrsOk h.length c.2)

/-- Allocation, `std::make_shared<Impl>(...)`: append a cell, return its
address. -/
def alloc (h : Heap) (c : MImpl) : Heap × Nat := (h ++ [c], h.length)

/-- Copying a `DynamicManaged` copies the `shared_ptr`: both values
share the same cell. -/
def mshareCopy (a : Nat) : Nat := a

/-- Lookup of a key in a heap object entry list. -/
def mLookupKey (k : String) : List (String × Nat) → Option Nat
  | [] => none
  | (k2, a) :: rest => if k == k2 then some a else mLookupKey k rest

mutual

/-- `Impl::Clone()` under the shared strategy: scalar payloads are
copied into a fresh cell; `Array`/`Object` payloads clone every nested
cell recursively and then allocate the rebuilt container.  Recursion
depth is bounded by fuel, modelling the finite call stack. -/
def mcloneAddr : Nat → Heap → Nat → Except Err (Heap × Nat)
  | 0, _, _ => .error .outOfFuel
  | fuel + 1, h, a =>
    match h[a]? with
    | none => .error .undefinedBehavior
    | some (t, p) =>
      if t == tagArray then
        match p with
        | .array es => do
          let (h2, es2) ← mcloneList fuel h es
          pure (alloc h2 (tagArray, .array es2))
        | _ => .error .undefinedBehavior
      else if t == tagObject then
        match p with
        | .object os => do
          let (h2, os2) ← mcloneObjList fuel h os
          pure (alloc h2 (tagObject, .object os2))
        | _ => .error .undefinedBehavior
      else if knownTag t then pure (alloc h (t, p))
      else .error .invalidTag
termination_by fuel _ _ => (fuel, 0)

/-- Clone of the element cells of an `Array` payload, threading the
heap. -/
def mcloneList : Nat → Heap → List Nat → Except Err (Heap × List Nat)
  | _, h, [] => .ok (h, [])
  | fuel, h, a :: rest => do
    let (h2, a2) ← mcloneAddr fuel h a
    let (h3, rest2) ← mcloneList fuel h2 rest
    pure (h3, a2 :: rest2)
termination_by fuel _ as => (fuel, as.length + 1)

/-- Clone of the entry cells of an `Object` payload, threading the
heap. -/
def mcloneObjList : Nat → Heap → List (String × Nat) →
    Except Err (Heap × List (String × Nat))
  | _, h, [] => .ok (h, [])
  | fuel, h, (k, a) :: rest => do
    let (h2, a2) ← mcloneAddr fuel h a
    let (h3, rest2) ← mcloneObjList fuel h2 rest
    pure (h3, (k, a2) :: rest2)
termination_by fuel _ as => (fuel, as.length + 1)

end

/-- Read `a[key]` through the const path: dereference the value's cell,
dispatch on its discriminator (`operator[]`), look the key up, and
dereference the element's cell.  Returns the element cell's contents. -/
def mReadKey (h : Heap) (a : Nat) (k : String) : Except Err MImpl :=
  match h[a]? with
  | none => .error .undefinedBehavior
  | some (t, p) =>
    if t == tagArray then do
      let i ← stoulModel k
      match p with
      | .array es =>
        match es[i]? with
        | some e =>
          match h[e]? with
          | some c => pure c
          | none => .error .undefinedBehavior
        | none => .error .outOfRange
      | _ => .error .undefinedBehavior
    else if t == tagObject then
      match p with
      | .object os =>
        match mLookupKey k os with
        | some e =>
          match h[e]? with
          | some c => pure c
          | none => .error .undefinedBehavior
        | none => .error .outOfRange
      | _ => .error .undefinedBehavior
    else .error .invalidAccess

/-- Destroy-and-emplace of a heap cell, `Emplace` reached through
`operator=` on the element reference: the cell's current discriminator
is dispatched for teardown (a stray one is fatal), then the new payload
is placed into the same cell. -/
def mAssignCell (h : Heap) (e : Nat) (c : MImpl) : Except Err Heap :=
  match h[e]? with
  | none => .error .undefinedBehavior
  | some (t, _) =>
    if knownTag t then .ok (h.set e c) else .error .invalidTag

/-- Write `a[key] = value` through the mutable path on a value holding
Object: look the key up; when present, re-emplace the element's shared
cell; when absent, `unordered_map::operator[]` default-constructs an
element (allocating a fresh Undefined cell), and the assignment then
re-emplaces that fresh cell. -/
def mSetKey (h : Heap) (a : Nat) (k : String) (c : MImpl) : Except Err Heap :=
  match h[a]? with
  | none => .error .undefinedBehavior
  | some (t, p) =>
    if t == tagObject then
      match p with
      | .object os =>
        match mLookupKey k os with
        | some e => mAssignCell h e c
        | none =>
          let (h2, f) := alloc h (tagUndefined, MPayload.undefined)
          let h3 := h2.set a (tagObject, .object (os ++ [(k, f)]))
          mAssignCell h3 f c
      | _ => .error .undefinedBehavior
    else .error .invalidAccess

/-- `BasicDynamic::IsUndefined()`: a pure discriminator check. -/
def holdsUndefined (v : Impl) : Bool := v.1 == tagUndefined

/-! ### Basic lemmas about discriminators and the invariant -/

theorem exc_bind_ok {α β : Type} (a : α) (f : α → Except Err β) :
    (Except.ok a >>= f) = f a := rfl

theorem exc_bind_err {α β : Type} (e : Err) (f : α → Except Err β) :
    ((Except.error e : Except Err α) >>= f) = Except.error e := rfl

theorem knownTag_tagOfP (p : Payload) : knownTag (tagOfP p) = true := by
  cases p <;> rfl

theorem wfI_iff (v : Impl) : wfI v = true ↔ v.1 = tagOfP v.2 ∧ wfP v.2 = true := by
  simp [wfI]

theorem wfI_undefImpl : wfI undefImpl = true := rfl

theorem wfI_mkP (p : Payload) (h : wfP p = true) : wfI (mkP p) = true := by
  simp [wfI, mkP, h]

theorem destroy_of_wf (v : Impl) (h : wfI v = true) :
    destroyIfNeeded v = .ok undefImpl := by
  rw [wfI_iff] at h
  simp [destroyIfNeeded, h.1, knownTag_tagOfP]

theorem emplace_of_wf (v : Impl) (p : Payload) (h : wfI v = true) :
    emplace v p = .ok (mkP p) := by
  simp [emplace, destroy_of_wf v h, exc_bind_ok]

theorem fromP_eq (p : Payload) : fromP p = .ok (mkP p) := by
  simp [fromP, emplace_of_wf undefImpl p wfI_undefImpl]

theorem moveRaw_of_wf (v : Impl) (h : wfI v = true) :
    moveRaw v = .ok (v, undefImpl) := by
  rw [wfI_iff] at h
  obtain ⟨t, p⟩ := v
  obtain ⟨h1, _⟩ := h
  simp only at h1
  subst h1
  cases p <;> simp [moveRaw, tagOfP, Payload.asBoolean, Payload.asInteger,
    Payload.asNumber, Payload.asString, Payload.asBlob, Payload.asArray,
    Payload.asObject, tagNull, tagBoolean, tagInteger, tagNumber, tagString,
    tagBlob, tagArray, tagObject, tagUndefined, exc_bind_ok]

theorem moveConstruct_of_wf (v : Impl) (h : wfI v = true) :
    moveConstruct v = .ok (v, undefImpl) := moveRaw_of_wf v h

theorem moveAssign_of_wf (dst v : Impl) (hd : wfI dst = true)
    (h : wfI v = true) : moveAssign dst v = .ok (v, undefImpl) := by
  simp [moveAssign, destroy_of_wf dst hd, moveRaw_of_wf v h, exc_bind_ok]

/-! ### List-shaped facts about the invariant -/

theorem wfArr_mem {es : List (Nat × Payload)} (h : wfArr es = true)
    {e : Nat × Payload} (hm : e ∈ es) : wfI e = true := by
  induction es with
  | nil => cases hm
  | cons x rest ih =>
    obtain ⟨xt, xp⟩ := x
    rw [wfArr] at h
    simp only [Bool.and_eq_true] at h
    rcases List.mem_cons.mp hm with rfl | hm2
    · simp [wfI, h.1.1, h.1.2]
    · exact ih h.2 hm2

theorem wfObj_mem {os : List (String × Nat × Payload)} (h : wfObj os = true)
    {e : String × Nat × Payload} (hm : e ∈ os) : wfI e.2 = true := by
  induction os with
  | nil => cases hm
  | cons x rest ih =>
    obtain ⟨xk, xt, xp⟩ := x
    rw [wfObj] at h
    simp only [Bool.and_eq_true] at h
    rcases List.mem_cons.mp hm with rfl | hm2
    · simp [wfI, h.1.1, h.1.2]
    · exact ih h.2 hm2

theorem wfArr_append (xs ys : List (Nat × Payload)) :
    wfArr (xs ++ ys) = (wfArr xs && wfArr ys) := by
  induction xs with
  | nil => simp [wfArr]
  | cons x rest ih =>
    obtain ⟨xt, xp⟩ := x
    simp [wfArr, ih, Bool.and_assoc]

theorem wfObj_append (xs ys : List (String × Nat × Payload)) :
    wfObj (xs ++ ys) = (wfObj xs && wfObj ys) := by
  induction xs with
  | nil => simp [wfObj]
  | cons x rest ih =>
    obtain ⟨xk, xt, xp⟩ := x
    simp [wfObj, ih, Bool.and_assoc]

theorem dropLast_cons_cons {α : Type} (a b : α) (l : List α) :
    (a :: b :: l).dropLast = a :: (b :: l).dropLast := rfl

theorem wfArr_dropLast {es : List (Nat × Payload)} (h : wfArr es = true) :
    wfArr es.dropLast = true := by
  induction es with
  | nil => exact h
  | cons x rest ih =>
    cases rest with
    | nil => rfl
    | cons y t =>
      obtain ⟨xt, xp⟩ := x
      rw [wfArr] at h
      simp only [Bool.and_eq_true] at h
      rw [dropLast_cons_cons, wfArr]
      simp only [Bool.and_eq_true]
      exact ⟨h.1, ih h.2⟩

theorem wfArr_set {es : List (Nat × Payload)} (h : wfArr es = true)
    (i : Nat) {e : Nat × Payload} (he : wfI e = true) :
    wfArr (es.set i e) = true := by
  induction es generalizing i with
  | nil => exact h
  | cons x rest ih =>
    obtain ⟨xt, xp⟩ := x
    rw [wfArr] at h
    simp only [Bool.and_eq_true] at h
    cases i with
    | zero =>
      obtain ⟨et, ep⟩ := e
      rw [wfI] at he
      simp only [Bool.and_eq_true] at he
      simp [List.set, wfArr, he.1, he.2, h.2]
    | succ n =>
      have := ih h.2 n
      simp [List.set, wfArr, h.1, h.2, this]

theorem lookupKey_none_keys {os : List (String × Nat × Payload)} {k : String}
    (h : lookupKey k os = none) : ∀ e ∈ os, (e.1 == k) = false := by
  induction os with
  | nil => intro e he; cases he
  | cons x rest ih =>
    obtain ⟨xk, xv⟩ := x
    rw [lookupKey] at h
    by_cases hk : (k == xk) = true
    · simp [hk] at h
    · intro e he
      rcases List.mem_cons.mp he with rfl | he2
      · simp only
        rw [Bool.eq_false_iff]
        intro hx
        exact hk (by simpa [BEq.comm] using hx)
      · exact ih (by simpa [hk] using h) e he2

theorem nodupKeys_append_absent {os : List (String × Nat × Payload)}
    {k : String} (hnd : nodupKeys os = true)
    (h : lookupKey k os = none) (v : Impl) :
    nodupKeys (os ++ [(k, v)]) = true := by
  induction os with
  | nil => simp [nodupKeys]
  | cons x rest ih =>
    obtain ⟨xk, xv⟩ := x
    rw [nodupKeys] at hnd
    simp only [Bool.and_eq_true] at hnd
    rw [lookupKey] at h
    by_cases hk : (k == xk) = true
    · simp [hk] at h
    · rw [List.cons_append, nodupKeys]
      simp only [Bool.and_eq_true]
      refine ⟨?_, ih hnd.2 (by simpa [hk] using h)⟩
      simp only [List.any_append, Bool.not_eq_true', Bool.or_eq_false_iff]
      constructor
      · simpa using hnd.1
      · simp only [List.any_cons, List.any_nil, Bool.or_false]
        rw [Bool.eq_false_iff]
        intro hx
        exact hk (by simpa [BEq.comm] using hx)

/-! ### Deep copy and clone act as the identity on well-formed values -/

theorem copyArr_of {es : List (Nat × Payload)}
    (IH : ∀ e ∈ es, copyRaw e = .ok e) : copyArr es = .ok es := by
  induction es with
  | nil => rw [copyArr]
  | cons e rest ih =>
    rw [copyArr, IH e (List.mem_cons_self e rest),
      ih (fun x hx => IH x (List.mem_cons_of_mem e hx))]
    rfl

theorem copyObj_of {os : List (String × Nat × Payload)}
    (IH : ∀ e ∈ os, copyRaw e.2 = .ok e.2) : copyObj os = .ok os := by
  induction os with
  | nil => rw [copyObj]
  | cons e rest ih =>
    obtain ⟨k, v⟩ := e
    rw [copyObj, IH (k, v) (List.mem_cons_self _ rest),
      ih (fun x hx => IH x (List.mem_cons_of_mem _ hx))]
    rfl

theorem copyRaw_id_bound : ∀ (n : Nat) (v : Impl), sizeOf v ≤ n →
    wfI v = true → copyRaw v = .ok v := by
  intro n
  induction n with
  | zero =>
    intro v hs _
    obtain ⟨t, p⟩ := v
    simp only [Prod.mk.sizeOf_spec] at hs
    omega
  | succ n ih =>
    intro v hs hwf
    rw [wfI_iff] at hwf
    obtain ⟨t, p⟩ := v
    obtain ⟨h1, h2⟩ := hwf
    simp only at h1
    subst h1
    cases p with
    | null => simp [copyRaw, tagOfP, tagNull]
    | boolean b => simp [copyRaw, tagOfP, tagNull, tagBoolean]
    | integer i => simp [copyRaw, tagOfP, tagNull, tagBoolean, tagInteger]
    | number x =>
      simp [copyRaw, tagOfP, tagNull, tagBoolean, tagInteger, tagNumber]
    | string s =>
      simp [copyRaw, tagOfP, tagNull, tagBoolean, tagInteger, tagNumber,
        tagString]
    | blob bs =>
      simp [copyRaw, tagOfP, tagNull, tagBoolean, tagInteger, tagNumber,
        tagString, tagBlob]
    | undefined =>
      simp [copyRaw, tagOfP, tagNull, tagBoolean, tagInteger, tagNumber,
        tagString, tagBlob, tagArray, tagObject, tagUndefined]
    | array es =>
      rw [wfP] at h2
      have harr : copyArr es = .ok es := by
        refine copyArr_of (fun e he => ?_)
        have hm : sizeOf e < sizeOf es := List.sizeOf_lt_of_mem he
        simp only [Prod.mk.sizeOf_spec, Payload.array.sizeOf_spec] at hs
        exact ih e (by omega) (wfArr_mem h2 he)
      simp [copyRaw, tagOfP, tagArray, tagNull, tagBoolean, tagInteger,
        tagNumber, tagString, tagBlob, harr, exc_bind_ok]
    | object os =>
      rw [wfP] at h2
      simp only [Bool.and_eq_true] at h2
      have hobj : copyObj os = .ok os := by
        refine copyObj_of (fun e he => ?_)
        have hm : sizeOf e < sizeOf os := List.sizeOf_lt_of_mem he
        have hm2 : sizeOf e.2 < sizeOf e := by
          obtain ⟨k, w⟩ := e
          simp only [Prod.mk.sizeOf_spec]
          omega
        simp only [Prod.mk.sizeOf_spec, Payload.object.sizeOf_spec] at hs
        exact ih e.2 (by omega) (wfObj_mem h2.2 he)
      simp [copyRaw, tagOfP, tagObject, tagNull, tagBoolean, tagInteger,
        tagNumber, tagString, tagBlob, tagArray, hobj, exc_bind_ok]

/-- `CopyRaw` reproduces any well-formed value exactly. -/
theorem copyRaw_id (v : Impl) (h : wfI v = true) : copyRaw v = .ok v :=
  copyRaw_id_bound (sizeOf v) v le_rfl h

theorem copyConstruct_id (v : Impl) (h : wfI v = true) :
    copyConstruct v = .ok v := copyRaw_id v h

theorem copyAssign_id (dst v : Impl) (hd : wfI dst = true)
    (h : wfI v = true) : copyAssign dst v = .ok v := by
  simp [copyAssign, destroy_of_wf dst hd, copyRaw_id v h, exc_bind_ok]

theorem cloneArr_of {es : List (Nat × Payload)}
    (IH : ∀ e ∈ es, cloneI e = .ok e) : cloneArr es = .ok es := by
  induction es with
  | nil => rw [cloneArr]
  | cons e rest ih =>
    rw [cloneArr, IH e (List.mem_cons_self e rest),
      ih (fun x hx => IH x (List.mem_cons_of_mem e hx))]
    rfl

theorem cloneObj_of {os : List (String × Nat × Payload)}
    (IH : ∀ e ∈ os, cloneI e.2 = .ok e.2) : cloneObj os = .ok os := by
  induction os with
  | nil => rw [cloneObj]
  | cons e rest ih =>
    obtain ⟨k, v⟩ := e
    rw [cloneObj, IH (k, v) (List.mem_cons_self _ rest),
      ih (fun x hx => IH x (List.mem_cons_of_mem _ hx))]
    rfl

theorem cloneI_id_bound : ∀ (n : Nat) (v : Impl), sizeOf v ≤ n →
    wfI v = true → cloneI v = .ok v := by
  intro n
  induction n with
  | zero =>
    intro v hs _
    obtain ⟨t, p⟩ := v
    simp only [Prod.mk.sizeOf_spec] at hs
    omega
  | succ n ih =>
    intro v hs hwf
    rw [wfI_iff] at hwf
    obtain ⟨t, p⟩ := v
    obtain ⟨h1, h2⟩ := hwf
    simp only at h1
    subst h1
    cases p with
    | null => simp [cloneI, tagOfP, tagNull]
    | boolean b => simp [cloneI, tagOfP, tagNull, tagBoolean]
    | integer i => simp [cloneI, tagOfP, tagNull, tagBoolean, tagInteger]
    | number x =>
      simp [cloneI, tagOfP, tagNull, tagBoolean, tagInteger, tagNumber]
    | string s =>
      simp [cloneI, tagOfP, tagNull, tagBoolean, tagInteger, tagNumber,
        tagString]
    | blob bs =>
      simp [cloneI, tagOfP, tagNull, tagBoolean, tagInteger, tagNumber,
        tagString, tagBlob]
    | undefined =>
      simp [cloneI, tagOfP, tagNull, tagBoolean, tagInteger, tagNumber,
        tagString, tagBlob, tagArray, tagObject, tagUndefined]
    | array es =>
      rw [wfP] at h2
      have harr : cloneArr es = .ok es := by
        refine cloneArr_of (fun e he => ?_)
        have hm : sizeOf e < sizeOf es := List.sizeOf_lt_of_mem he
        simp only [Prod.mk.sizeOf_spec, Payload.array.sizeOf_spec] at hs
        exact ih e (by omega) (wfArr_mem h2 he)
      simp [cloneI, tagOfP, tagArray, tagNull, tagBoolean, tagInteger,
        tagNumber, tagString, tagBlob, harr, exc_bind_ok]
    | object os =>
      rw [wfP] at h2
      simp only [Bool.and_eq_true] at h2
      have hobj : cloneObj os = .ok os := by
        refine cloneObj_of (fun e he => ?_)
        have hm : sizeOf e < sizeOf os := List.sizeOf_lt_of_mem he
        have hm2 : sizeOf e.2 < sizeOf e := by
          obtain ⟨k, w⟩ := e
          simp only [Prod.mk.sizeOf_spec]
          omega
        simp only [Prod.mk.sizeOf_spec, Payload.object.sizeOf_spec] at hs
        exact ih e.2 (by omega) (wfObj_mem h2.2 he)
      simp [cloneI, tagOfP, tagObject, tagNull, tagBoolean, tagInteger,
        tagNumber, tagString, tagBlob, tagArray, hobj, exc_bind_ok]

/-- `Clone` reproduces any well-formed value exactly. -/
theorem cloneI_id (v : Impl) (h : wfI v = true) : cloneI v = .ok v :=
  cloneI_id_bound (sizeOf v) v le_rfl h

/-! ### Shape of a payload determined by its discriminator -/

theorem shape_null {q : Payload} (h : tagOfP q = tagNull) : q = .null := by
  cases q <;> simp_all [tagOfP, tagNull, tagBoolean, tagInteger, tagNumber,
    tagString, tagBlob, tagArray, tagObject, tagUndefined]

theorem shape_boolean {q : Payload} (h : tagOfP q = tagBoolean) :
    ∃ b, q = .boolean b := by
  cases q <;> simp_all [tagOfP, tagNull, tagBoolean, tagInteger, tagNumber,
    tagString, tagBlob, tagArray, tagObject, tagUndefined]

theorem shape_integer {q : Payload} (h : tagOfP q = tagInteger) :
    ∃ i, q = .integer i := by
  cases q <;> simp_all [tagOfP, tagNull, tagBoolean, tagInteger, tagNumber,
    tagString, tagBlob, tagArray, tagObject, tagUndefined]

theorem shape_number {q : Payload} (h : tagOfP q = tagNumber) :
    ∃ x, q = .number x := by
  cases q <;> simp_all [tagOfP, tagNull, tagBoolean, tagInteger, tagNumber,
    tagString, tagBlob, tagArray, tagObject, tagUndefined]

theorem shape_string {q : Payload} (h : tagOfP q = tagString) :
    ∃ s, q = .string s := by
  cases q <;> simp_all [tagOfP, tagNull, tagBoolean, tagInteger, tagNumber,
    tagString, tagBlob, tagArray, tagObject, tagUndefined]

theorem shape_blob {q : Payload} (h : tagOfP q = tagBlob) :
    ∃ bs, q = .blob bs := by
  cases q <;> simp_all [tagOfP, tagNull, tagBoolean, tagInteger, tagNumber,
    tagString, tagBlob, tagArray, tagObject, tagUndefined]

theorem shape_array {q : Payload} (h : tagOfP q = tagArray) :
    ∃ es, q = .array es := by
  cases q <;> simp_all [tagOfP, tagNull, tagBoolean, tagInteger, tagNumber,
    tagString, tagBlob, tagArray, tagObject, tagUndefined]

theorem shape_object {q : Payload} (h : tagOfP q = tagObject) :
    ∃ os, q = .object os := by
  cases q <;> simp_all [tagOfP, tagNull, tagBoolean, tagInteger, tagNumber,
    tagString, tagBlob, tagArray, tagObject, tagUndefined]

theorem shape_undefined {q : Payload} (h : tagOfP q = tagUndefined) :
    q = .undefined := by
  cases q <;> simp_all [tagOfP, tagNull, tagBoolean, tagInteger, tagNumber,
    tagString, tagBlob, tagArray, tagObject, tagUndefined]

/-! ### Facts about key search in object entry lists -/

theorem nodupKeys_cons_not_mem {k : String} {v : Impl}
    {rest : List (String × Nat × Payload)}
    (h : nodupKeys ((k, v) :: rest) = true) :
    ∀ e ∈ rest, (e.1 == k) = false := by
  rw [nodupKeys] at h
  simp only [Bool.and_eq_true, Bool.not_eq_true'] at h
  intro e he
  rcases h with ⟨h1, _⟩
  rw [List.any_eq_false] at h1
  simpa using h1 e he

theorem nodupKeys_cons_tail {k : String} {v : Impl}
    {rest : List (String × Nat × Payload)}
    (h : nodupKeys ((k, v) :: rest) = true) : nodupKeys rest = true := by
  rw [nodupKeys] at h
  simp only [Bool.and_eq_true] at h
  exact h.2

theorem nodup_entry_unique {os : List (String × Nat × Payload)}
    (hnd : nodupKeys os = true) {k : String} {v w : Impl}
    (hv : (k, v) ∈ os) (hw : (k, w) ∈ os) : v = w := by
  induction os with
  | nil => cases hv
  | cons x rest ih =>
    obtain ⟨xk, xv⟩ := x
    rcases List.mem_cons.mp hv with hv1 | hv2 <;>
      rcases List.mem_cons.mp hw with hw1 | hw2
    · rw [Prod.mk.injEq] at hv1 hw1
      rw [hv1.2, hw1.2]
    · exfalso
      rw [Prod.mk.injEq] at hv1
      have := nodupKeys_cons_not_mem hnd (k, w) hw2
      simp [hv1.1] at this
    · exfalso
      rw [Prod.mk.injEq] at hw1
      have := nodupKeys_cons_not_mem hnd (k, v) hv2
      simp [hw1.1] at this
    · exact ih (nodupKeys_cons_tail hnd) hv2 hw2

theorem objFind_found {ys : List (String × Nat × Payload)}
    (hnd : nodupKeys ys = true) {k : String} {w : Impl}
    (hm : (k, w) ∈ ys) (v : Impl) : objFind k v ys = dynEq v w := by
  induction ys with
  | nil => cases hm
  | cons y rest ih =>
    obtain ⟨yk, yv⟩ := y
    rcases List.mem_cons.mp hm with h1 | h2
    · rw [Prod.mk.injEq] at h1
      rw [objFind]
      simp [h1.1, h1.2]
    · have hne : (k == yk) = false := by
        have := nodupKeys_cons_not_mem hnd (k, w) h2
        simp only at this
        rw [Bool.eq_false_iff] at this ⊢
        intro hx
        exact this (by simpa [BEq.comm] using hx)
      rw [objFind, hne]
      simp only [Bool.false_eq_true, if_false]
      exact ih (nodupKeys_cons_tail hnd) h2

theorem objFind_exists {ys : List (String × Nat × Payload)} {k : String}
    {v : Impl} (h : objFind k v ys = .ok true) :
    ∃ w, (k, w) ∈ ys ∧ dynEq v w = .ok true := by
  induction ys with
  | nil => simp [objFind] at h
  | cons y rest ih =>
    obtain ⟨yk, yv⟩ := y
    rw [objFind] at h
    by_cases hk : (k == yk) = true
    · refine ⟨yv, ?_, ?_⟩
      · have : k = yk := by simpa using hk
        subst this
        exact List.mem_cons_self _ _
      · simpa [hk] using h
    · have hk2 : (k == yk) = false := by
        rwa [Bool.not_eq_true] at hk
      simp only [hk2, Bool.false_eq_true, if_false] at h
      obtain ⟨w, hw1, hw2⟩ := ih h
      exact ⟨w, List.mem_cons_of_mem _ hw1, hw2⟩

theorem objAll_of_forall {xs ys : List (String × Nat × Payload)}
    (h : ∀ x ∈ xs, objFind x.1 x.2 ys = .ok true) : objAll xs ys = .ok true := by
  induction xs with
  | nil => rw [objAll]
  | cons x rest ih =>
    obtain ⟨xk, xv⟩ := x
    rw [objAll, h (xk, xv) (List.mem_cons_self _ _)]
    simpa using ih (fun e he => h e (List.mem_cons_of_mem _ he))

theorem objAll_forall {xs ys : List (String × Nat × Payload)}
    (h : objAll xs ys = .ok true) :
    ∀ x ∈ xs, objFind x.1 x.2 ys = .ok true := by
  induction xs with
  | nil => intro x hx; cases hx
  | cons x rest ih =>
    obtain ⟨xk, xv⟩ := x
    rw [objAll] at h
    cases hf : objFind xk xv ys with
    | error e => rw [hf] at h; cases h
    | ok r =>
      rw [hf] at h
      cases r with
      | false => simp [exc_bind_ok, pure, Except.pure] at h
      | true =>
        have h2 : objAll rest ys = .ok true := by simpa [exc_bind_ok] using h
        intro e he
        rcases List.mem_cons.mp he with rfl | he2
        · exact hf
        · exact ih h2 e he2

theorem nodupKeys_toNodup {os : List (String × Nat × Payload)}
    (h : nodupKeys os = true) : (os.map (fun e => e.1)).Nodup := by
  induction os with
  | nil => exact List.nodup_nil
  | cons x rest ih =>
    obtain ⟨xk, xv⟩ := x
    rw [List.map_cons, List.nodup_cons]
    constructor
    · intro hmem
      obtain ⟨e, he, hek⟩ := List.mem_map.mp hmem
      have := nodupKeys_cons_not_mem h e he
      simp [hek] at this
    · exact ih (nodupKeys_cons_tail h)

theorem mem_keys_exists {os : List (String × Nat × Payload)} {k : String}
    (h : k ∈ os.map (fun e => e.1)) : ∃ v, (k, v) ∈ os := by
  obtain ⟨e, he, hek⟩ := List.mem_map.mp h
  obtain ⟨k2, v⟩ := e
  simp only at hek
  subst hek
  exact ⟨v, he⟩

/-! ### Equality: totality, reflexivity, symmetry -/

theorem sizeOf_snd_lt {α β : Type} [SizeOf α] [SizeOf β]
    {l : List (α × β)} {e : α × β} (h : e ∈ l) : sizeOf e.2 < sizeOf l := by
  have h1 := List.sizeOf_lt_of_mem h
  obtain ⟨x, y⟩ := e
  simp only [Prod.mk.sizeOf_spec] at h1
  simp only
  omega

theorem nanFreeArr_mem {es : List (Nat × Payload)} (h : nanFreeArr es = true)
    {e : Nat × Payload} (hm : e ∈ es) : nanFreeP e.2 = true := by
  induction es with
  | nil => cases hm
  | cons x rest ih =>
    obtain ⟨xt, xp⟩ := x
    rw [nanFreeArr] at h
    simp only [Bool.and_eq_true] at h
    rcases List.mem_cons.mp hm with rfl | hm2
    · exact h.1
    · exact ih h.2 hm2

theorem nanFreeObj_mem {os : List (String × Nat × Payload)}
    (h : nanFreeObj os = true) {e : String × Nat × Payload} (hm : e ∈ os) :
    nanFreeP e.2.2 = true := by
  induction os with
  | nil => cases hm
  | cons x rest ih =>
    obtain ⟨xk, xt, xp⟩ := x
    rw [nanFreeObj] at h
    simp only [Bool.and_eq_true] at h
    rcases List.mem_cons.mp hm with rfl | hm2
    · exact h.1
    · exact ih h.2 hm2

set_option maxHeartbeats 1000000 in
theorem arrEq_ok {xs ys : List (Nat × Payload)}
    (IH : ∀ x ∈ xs, ∀ y ∈ ys, ∃ r, dynEq x y = .ok r) :
    ∃ r, arrEq xs ys = .ok r := by
  induction xs generalizing ys with
  | nil => exact ⟨true, by rw [arrEq]⟩
  | cons x xs2 ih =>
    cases ys with
    | nil => exact ⟨true, by simp [arrEq]⟩
    | cons y ys2 =>
      obtain ⟨r, hr⟩ := IH x (List.mem_cons_self _ _) y (List.mem_cons_self _ _)
      cases r with
      | false => exact ⟨false, by rw [arrEq, hr]; rfl⟩
      | true =>
        obtain ⟨r2, h2⟩ := ih (fun a ha b hb =>
          IH a (List.mem_cons_of_mem _ ha) b (List.mem_cons_of_mem _ hb))
        exact ⟨r2, by rw [arrEq, hr, exc_bind_ok, if_pos rfl, h2]⟩

theorem objFind_ok {ys : List (String × Nat × Payload)} {k : String} {v : Impl}
    (IH : ∀ e ∈ ys, ∃ r, dynEq v e.2 = .ok r) : ∃ r, objFind k v ys = .ok r := by
  induction ys with
  | nil => exact ⟨false, by rw [objFind]⟩
  | cons y rest ih =>
    obtain ⟨yk, yv⟩ := y
    by_cases hk : (k == yk) = true
    · obtain ⟨r, hr⟩ := IH (yk, yv) (List.mem_cons_self _ _)
      exact ⟨r, by rw [objFind, if_pos hk]; exact hr⟩
    · obtain ⟨r, hr⟩ := ih (fun e he => IH e (List.mem_cons_of_mem _ he))
      exact ⟨r, by rw [objFind, if_neg hk]; exact hr⟩

theorem objAll_ok {xs ys : List (String × Nat × Payload)}
    (IH : ∀ x ∈ xs, ∀ e ∈ ys, ∃ r, dynEq x.2 e.2 = .ok r) :
    ∃ r, objAll xs ys = .ok r := by
  induction xs with
  | nil => exact ⟨true, by rw [objAll]⟩
  | cons x rest ih =>
    obtain ⟨xk, xv⟩ := x
    obtain ⟨r, hr⟩ := objFind_ok (IH (xk, xv) (List.mem_cons_self _ _))
    cases r with
    | false => exact ⟨false, by rw [objAll, hr]; rfl⟩
    | true =>
      obtain ⟨r2, h2⟩ := ih (fun a ha => IH a (List.mem_cons_of_mem _ ha))
      exact ⟨r2, by rw [objAll, hr, exc_bind_ok, if_pos rfl, h2]⟩

theorem dynEq_ok_bound : ∀ (n : Nat) (a b : Impl), sizeOf a + sizeOf b ≤ n →
    wfI a = true → wfI b = true → ∃ r, dynEq a b = .ok r := by
  intro n
  induction n with
  | zero =>
    intro a b hs _ _
    obtain ⟨ta, pa⟩ := a
    simp only [Prod.mk.sizeOf_spec] at hs
    omega
  | succ n ih =>
    intro a b hs hwa hwb
    rw [wfI_iff] at hwa hwb
    obtain ⟨ta, pa⟩ := a
    obtain ⟨tb, pb⟩ := b
    obtain ⟨ha1, ha2⟩ := hwa
    obtain ⟨hb1, hb2⟩ := hwb
    simp only at ha1 hb1 ha2 hb2
    subst ha1
    subst hb1
    by_cases ht : tagOfP pa = tagOfP pb
    · cases pa with
      | null =>
        have hq := shape_null (q := pb) (by rw [← ht]; rfl)
        subst hq
        exact ⟨true, by simp [dynEq, scalarEq, tagOfP, tagNull, tagArray,
          tagObject, bne]⟩
      | boolean x =>
        obtain ⟨y, rfl⟩ := shape_boolean (q := pb) (by rw [← ht]; rfl)
        exact ⟨x == y, by simp [dynEq, scalarEq, tagOfP, tagNull, tagBoolean,
          tagArray, tagObject, bne, Payload.asBoolean, exc_bind_ok]⟩
      | integer x =>
        obtain ⟨y, rfl⟩ := shape_integer (q := pb) (by rw [← ht]; rfl)
        exact ⟨x == y, by simp [dynEq, scalarEq, tagOfP, tagNull, tagBoolean,
          tagInteger, tagArray, tagObject, bne, Payload.asInteger, exc_bind_ok]⟩
      | number x =>
        obtain ⟨y, rfl⟩ := shape_number (q := pb) (by rw [← ht]; rfl)
        exact ⟨F64.feq x y, by simp [dynEq, scalarEq, tagOfP, tagNull,
          tagBoolean, tagInteger, tagNumber, tagArray, tagObject, bne,
          Payload.asNumber, exc_bind_ok]⟩
      | string x =>
        obtain ⟨y, rfl⟩ := shape_string (q := pb) (by rw [← ht]; rfl)
        exact ⟨x == y, by simp [dynEq, scalarEq, tagOfP, tagNull, tagBoolean,
          tagInteger, tagNumber, tagString, tagArray, tagObject, bne,
          Payload.asString, exc_bind_ok]⟩
      | blob x =>
        obtain ⟨y, rfl⟩ := shape_blob (q := pb) (by rw [← ht]; rfl)
        exact ⟨x == y, by simp [dynEq, scalarEq, tagOfP, tagNull, tagBoolean,
          tagInteger, tagNumber, tagString, tagBlob, tagArray, tagObject, bne,
          Payload.asBlob, exc_bind_ok]⟩
      | undefined =>
        have hq := shape_undefined (q := pb) (by rw [← ht]; rfl)
        subst hq
        exact ⟨true, by simp [dynEq, scalarEq, tagOfP, tagNull, tagBoolean,
          tagInteger, tagNumber, tagString, tagBlob, tagArray, tagObject,
          tagUndefined, bne]⟩
      | array xs =>
        obtain ⟨ys, rfl⟩ := shape_array (q := pb) (by rw [← ht]; rfl)
        rw [wfP] at ha2 hb2
        by_cases hlen : xs.length = ys.length
        · have harr : ∃ r, arrEq xs ys = .ok r := by
            refine arrEq_ok (fun x hx y hy => ?_)
            have s1 := List.sizeOf_lt_of_mem hx
            have s2 := List.sizeOf_lt_of_mem hy
            simp only [Prod.mk.sizeOf_spec, Payload.array.sizeOf_spec] at hs
            exact ih x y (by omega) (wfArr_mem ha2 hx) (wfArr_mem hb2 hy)
          obtain ⟨r, hr⟩ := harr
          exact ⟨r, by simp [dynEq, tagOfP, tagArray, tagObject, bne,
            Payload.asArray, exc_bind_ok, hlen, hr]⟩
        · exact ⟨false, by simp [dynEq, tagOfP, tagArray, tagObject, bne,
            Payload.asArray, exc_bind_ok, hlen, pure, Except.pure]⟩
      | object xs =>
        obtain ⟨ys, rfl⟩ := shape_object (q := pb) (by rw [← ht]; rfl)
        rw [wfP] at ha2 hb2
        simp only [Bool.and_eq_true] at ha2 hb2
        by_cases hlen : xs.length = ys.length
        · have hobj : ∃ r, objAll xs ys = .ok r := by
            refine objAll_ok (fun x hx e he => ?_)
            have s1 := sizeOf_snd_lt hx
            have s2 := sizeOf_snd_lt he
            simp only [Prod.mk.sizeOf_spec, Payload.object.sizeOf_spec] at hs
            exact ih x.2 e.2 (by omega) (wfObj_mem ha2.2 hx) (wfObj_mem hb2.2 he)
          obtain ⟨r, hr⟩ := hobj
          exact ⟨r, by simp [dynEq, tagOfP, tagArray, tagObject, bne,
            Payload.asObject, exc_bind_ok, hlen, hr]⟩
        · exact ⟨false, by simp [dynEq, tagOfP, tagArray, tagObject, bne,
            Payload.asObject, exc_bind_ok, hlen, pure, Except.pure]⟩
    · refine ⟨false, ?_⟩
      have hbne : (tagOfP pa != tagOfP pb) = true := by
        simp [bne_iff_ne, ht]
      cases pa <;> simp [dynEq, hbne]

/-- Well-formed values always compare without an error. -/
theorem dynEq_ok (a b : Impl) (ha : wfI a = true) (hb : wfI b = true) :
    ∃ r, dynEq a b = .ok r :=
  dynEq_ok_bound (sizeOf a + sizeOf b) a b le_rfl ha hb

theorem arrEq_refl_of {xs : List (Nat × Payload)}
    (IH : ∀ x ∈ xs, dynEq x x = .ok true) : arrEq xs xs = .ok true := by
  induction xs with
  | nil => simp [arrEq]
  | cons x rest ih =>
    rw [arrEq, IH x (List.mem_cons_self _ _), exc_bind_ok, if_pos rfl]
    exact ih (fun e he => IH e (List.mem_cons_of_mem _ he))

/-- Equality is reflexive on well-formed values free of NaN numbers. -/
theorem dynEq_refl_bound : ∀ (n : Nat) (v : Impl), sizeOf v ≤ n →
    wfI v = true → nanFreeP v.2 = true → dynEq v v = .ok true := by
  intro n
  induction n with
  | zero =>
    intro v hs _ _
    obtain ⟨t, p⟩ := v
    simp only [Prod.mk.sizeOf_spec] at hs
    omega
  | succ n ih =>
    intro v hs hwf hnf
    rw [wfI_iff] at hwf
    obtain ⟨t, p⟩ := v
    obtain ⟨h1, h2⟩ := hwf
    simp only at h1 h2 hnf
    subst h1
    cases p with
    | null =>
      simp [dynEq, scalarEq, tagOfP, tagNull, tagArray, tagObject, bne]
    | boolean x =>
      simp [dynEq, scalarEq, tagOfP, tagNull, tagBoolean, tagArray, tagObject,
        bne, Payload.asBoolean, exc_bind_ok]
    | integer x =>
      simp [dynEq, scalarEq, tagOfP, tagNull, tagBoolean, tagInteger, tagArray,
        tagObject, bne, Payload.asInteger, exc_bind_ok]
    | number x =>
      rw [nanFreeP] at hnf
      simp [dynEq, scalarEq, tagOfP, tagNull, tagBoolean, tagInteger,
        tagNumber, tagArray, tagObject, bne, Payload.asNumber, exc_bind_ok,
        F64.feq_refl x hnf]
    | string x =>
      simp [dynEq, scalarEq, tagOfP, tagNull, tagBoolean, tagInteger,
        tagNumber, tagString, tagArray, tagObject, bne, Payload.asString,
        exc_bind_ok]
    | blob x =>
      simp [dynEq, scalarEq, tagOfP, tagNull, tagBoolean, tagInteger,
        tagNumber, tagString, tagBlob, tagArray, tagObject, bne,
        Payload.asBlob, exc_bind_ok]
    | undefined =>
      simp [dynEq, scalarEq, tagOfP, tagNull, tagBoolean, tagInteger,
        tagNumber, tagString, tagBlob, tagArray, tagObject, tagUndefined, bne]
    | array xs =>
      rw [wfP] at h2
      rw [nanFreeP] at hnf
      have harr : arrEq xs xs = .ok true := by
        refine arrEq_refl_of (fun x hx => ?_)
        have s1 := List.sizeOf_lt_of_mem hx
        simp only [Prod.mk.sizeOf_spec, Payload.array.sizeOf_spec] at hs
        exact ih x (by omega) (wfArr_mem h2 hx) (nanFreeArr_mem hnf hx)
      simp [dynEq, tagOfP, tagArray, tagObject, bne, Payload.asArray,
        exc_bind_ok, harr]
    | object os =>
      rw [wfP] at h2
      rw [nanFreeP] at hnf
      simp only [Bool.and_eq_true] at h2
      have hobj : objAll os os = .ok true := by
        refine objAll_of_forall (fun x hx => ?_)
        obtain ⟨k, v⟩ := x
        rw [objFind_found h2.1 hx v]
        have s1 := sizeOf_snd_lt hx
        simp only at s1
        simp only [Prod.mk.sizeOf_spec, Payload.object.sizeOf_spec] at hs
        exact ih v (by omega) (wfObj_mem h2.2 hx) (nanFreeObj_mem hnf hx)
      simp [dynEq, tagOfP, tagArray, tagObject, bne, Payload.asObject,
        exc_bind_ok, hobj]

/-- Reflexivity of the equality operator on NaN-free well-formed
values. -/
theorem dynEq_refl (v : Impl) (hwf : wfI v = true)
    (hnf : nanFreeP v.2 = true) : dynEq v v = .ok true :=
  dynEq_refl_bound (sizeOf v) v le_rfl hwf hnf

theorem arrEq_symm_of {xs ys : List (Nat × Payload)}
    (IH : ∀ x ∈ xs, ∀ y ∈ ys, dynEq x y = .ok true → dynEq y x = .ok true)
    (h : arrEq xs ys = .ok true) : arrEq ys xs = .ok true := by
  induction xs generalizing ys with
  | nil =>
    cases ys with
    | nil => exact h
    | cons y t => simp [arrEq]
  | cons x rest ih =>
    cases ys with
    | nil => rw [arrEq]
    | cons y t =>
      rw [arrEq] at h
      cases hd : dynEq x y with
      | error e => rw [hd] at h; cases h
      | ok r =>
        rw [hd] at h
        cases r with
        | false => simp [exc_bind_ok, pure, Except.pure] at h
        | true =>
          have h2 : arrEq rest t = .ok true := by
            simpa [exc_bind_ok] using h
          have hyx : dynEq y x = .ok true :=
            IH x (List.mem_cons_self _ _) y (List.mem_cons_self _ _) hd
          rw [arrEq, hyx, exc_bind_ok, if_pos rfl]
          exact ih
            (fun a ha b hb => IH a (List.mem_cons_of_mem _ ha)
              b (List.mem_cons_of_mem _ hb)) h2

/-- Equality of well-formed values is symmetric on the `true` result. -/
theorem dynEq_symm_bound : ∀ (n : Nat) (a b : Impl), sizeOf a + sizeOf b ≤ n →
    wfI a = true → wfI b = true → dynEq a b = .ok true →
    dynEq b a = .ok true := by
  intro n
  induction n with
  | zero =>
    intro a b hs _ _ _
    obtain ⟨ta, pa⟩ := a
    simp only [Prod.mk.sizeOf_spec] at hs
    omega
  | succ n ih =>
    intro a b hs hwa hwb h
    rw [wfI_iff] at hwa hwb
    obtain ⟨ta, pa⟩ := a
    obtain ⟨tb, pb⟩ := b
    obtain ⟨ha1, ha2⟩ := hwa
    obtain ⟨hb1, hb2⟩ := hwb
    simp only at ha1 hb1 ha2 hb2
    subst ha1
    subst hb1
    by_cases ht : tagOfP pa = tagOfP pb
    · cases pa with
      | null =>
        have hq := shape_null (q := pb) (by rw [← ht]; rfl)
        subst hq
        exact h
      | boolean x =>
        obtain ⟨y, rfl⟩ := shape_boolean (q := pb) (by rw [← ht]; rfl)
        simp [dynEq, scalarEq, tagOfP, tagNull, tagBoolean, tagArray,
          tagObject, bne, Payload.asBoolean, exc_bind_ok] at h
        simp [dynEq, scalarEq, tagOfP, tagNull, tagBoolean, tagArray,
          tagObject, bne, Payload.asBoolean, exc_bind_ok, h]
      | integer x =>
        obtain ⟨y, rfl⟩ := shape_integer (q := pb) (by rw [← ht]; rfl)
        simp [dynEq, scalarEq, tagOfP, tagNull, tagBoolean, tagInteger,
          tagArray, tagObject, bne, Payload.asInteger, exc_bind_ok] at h
        simp [dynEq, scalarEq, tagOfP, tagNull, tagBoolean, tagInteger,
          tagArray, tagObject, bne, Payload.asInteger, exc_bind_ok, h]
      | number x =>
        obtain ⟨y, rfl⟩ := shape_number (q := pb) (by rw [← ht]; rfl)
        simp [dynEq, scalarEq, tagOfP, tagNull, tagBoolean, tagInteger,
          tagNumber, tagArray, tagObject, bne, Payload.asNumber,
          exc_bind_ok] at h
        simp [dynEq, scalarEq, tagOfP, tagNull, tagBoolean, tagInteger,
          tagNumber, tagArray, tagObject, bne, Payload.asNumber, exc_bind_ok,
          F64.feq_symm y x, h]
      | string x =>
        obtain ⟨y, rfl⟩ := shape_string (q := pb) (by rw [← ht]; rfl)
        simp [dynEq, scalarEq, tagOfP, tagNull, tagBoolean, tagInteger,
          tagNumber, tagString, tagArray, tagObject, bne, Payload.asString,
          exc_bind_ok] at h
        simp [dynEq, scalarEq, tagOfP, tagNull, tagBoolean, tagInteger,
          tagNumber, tagString, tagArray, tagObject, bne, Payload.asString,
          exc_bind_ok, h]
      | blob x =>
        obtain ⟨y, rfl⟩ := shape_blob (q := pb) (by rw [← ht]; rfl)
        simp [dynEq, scalarEq, tagOfP, tagNull, tagBoolean, tagInteger,
          tagNumber, tagString, tagBlob, tagArray, tagObject, bne,
          Payload.asBlob, exc_bind_ok] at h
        simp [dynEq, scalarEq, tagOfP, tagNull, tagBoolean, tagInteger,
          tagNumber, tagString, tagBlob, tagArray, tagObject, bne,
          Payload.asBlob, exc_bind_ok, h]
      | undefined =>
        have hq := shape_undefined (q := pb) (by rw [← ht]; rfl)
        subst hq
        exact h
      | array xs =>
        obtain ⟨ys, rfl⟩ := shape_array (q := pb) (by rw [← ht]; rfl)
        rw [wfP] at ha2 hb2
        by_cases hlen : xs.length = ys.length
        · simp [dynEq, tagOfP, tagArray, tagObject, bne, Payload.asArray,
            exc_bind_ok, hlen] at h
          have harr : arrEq ys xs = .ok true := by
            refine arrEq_symm_of (fun x hx y hy hxy => ?_) h
            have s1 := List.sizeOf_lt_of_mem hx
            have s2 := List.sizeOf_lt_of_mem hy
            simp only [Prod.mk.sizeOf_spec, Payload.array.sizeOf_spec] at hs
            exact ih x y (by omega) (wfArr_mem ha2 hx) (wfArr_mem hb2 hy) hxy
          simp [dynEq, tagOfP, tagArray, tagObject, bne, Payload.asArray,
            exc_bind_ok, hlen.symm, harr]
        · simp [dynEq, tagOfP, tagArray, tagObject, bne, Payload.asArray,
            exc_bind_ok, hlen, pure, Except.pure] at h
      | object xs =>
        obtain ⟨ys, rfl⟩ := shape_object (q := pb) (by rw [← ht]; rfl)
        rw [wfP] at ha2 hb2
        simp only [Bool.and_eq_true] at ha2 hb2
        by_cases hlen : xs.length = ys.length
        · simp [dynEq, tagOfP, tagArray, tagObject, bne, Payload.asObject,
            exc_bind_ok, hlen] at h
          have hforall := objAll_forall h
          have hsub : (xs.map (fun e => e.1)) ⊆ (ys.map (fun e => e.1)) := by
            intro k hk
            obtain ⟨v, hv⟩ := mem_keys_exists hk
            obtain ⟨w, hw, _⟩ := objFind_exists (hforall (k, v) hv)
            exact List.mem_map.mpr ⟨(k, w), hw, rfl⟩
          have hperm : (xs.map (fun e => e.1)).Perm (ys.map (fun e => e.1)) := by
            refine (List.subperm_of_subset (nodupKeys_toNodup ha2.1)
              hsub).perm_of_length_le ?_
            simp [hlen]
          have hobj2 : objAll ys xs = .ok true := by
            refine objAll_of_forall (fun e he => ?_)
            obtain ⟨k, w⟩ := e
            have hk2 : k ∈ ys.map (fun e => e.1) :=
              List.mem_map.mpr ⟨(k, w), he, rfl⟩
            have hk1 : k ∈ xs.map (fun e => e.1) := hperm.mem_iff.mpr hk2
            obtain ⟨v, hv⟩ := mem_keys_exists hk1
            obtain ⟨w2, hw2, heq⟩ := objFind_exists (hforall (k, v) hv)
            have hww : w2 = w := nodup_entry_unique hb2.1 hw2 he
            rw [hww] at heq
            have s1 := sizeOf_snd_lt hv
            have s2 := sizeOf_snd_lt he
            simp only [Prod.mk.sizeOf_spec, Payload.object.sizeOf_spec] at hs
            have hsym : dynEq w v = .ok true := by
              refine ih v w ?_ (wfObj_mem ha2.2 hv) (wfObj_mem hb2.2 he) heq
              simp only at s1 s2
              omega
            rw [objFind_found ha2.1 hv w]
            exact hsym
          simp [dynEq, tagOfP, tagArray, tagObject, bne, Payload.asObject,
            exc_bind_ok, hlen.symm, hobj2]
        · simp [dynEq, tagOfP, tagArray, tagObject, bne, Payload.asObject,
            exc_bind_ok, hlen, pure, Except.pure] at h
    · have hbne : (tagOfP pa != tagOfP pb) = true := by
        simp [bne_iff_ne, ht]
      exfalso
      cases pa <;> simp [dynEq, hbne] at h

/-- Equality of well-formed values is fully symmetric, as an equality of
outcomes. -/
theorem dynEq_symm (a b : Impl) (ha : wfI a = true) (hb : wfI b = true) :
    dynEq a b = dynEq b a := by
  obtain ⟨r1, h1⟩ := dynEq_ok a b ha hb
  obtain ⟨r2, h2⟩ := dynEq_ok b a hb ha
  rw [h1, h2]
  cases r1 with
  | true =>
    rw [dynEq_symm_bound (sizeOf a + sizeOf b) a b le_rfl ha hb h1] at h2
    rw [h2]
  | false =>
    cases r2 with
    | false => rfl
    | true =>
      rw [dynEq_symm_bound (sizeOf b + sizeOf a) b a le_rfl hb ha h2] at h1
      cases h1

/-- Values with mismatched discriminators compare unequal without an
error. -/
theorem dynEq_tag_mismatch (a b : Impl) (h : a.1 ≠ b.1) :
    dynEq a b = .ok false := by
  obtain ⟨ta, pa⟩ := a
  have hbne : (ta != b.1) = true := by simp [bne_iff_ne, h]
  cases pa <;> simp [dynEq, hbne]

/-- Two well-formed, NaN-free objects whose entry lists are permutations
of one another compare equal: insertion order is irrelevant. -/
theorem dynEq_object_perm (xs ys : List (String × Nat × Payload))
    (hperm : xs.Perm ys)
    (hwx : wfP (.object xs) = true) (hwy : wfP (.object ys) = true)
    (hnf : nanFreeP (.object xs) = true) :
    dynEq (tagObject, .object xs) (tagObject, .object ys) = .ok true := by
  rw [wfP] at hwx hwy
  rw [nanFreeP] at hnf
  simp only [Bool.and_eq_true] at hwx hwy
  have hobj : objAll xs ys = .ok true := by
    refine objAll_of_forall (fun x hx => ?_)
    obtain ⟨k, v⟩ := x
    have hy : (k, v) ∈ ys := hperm.mem_iff.mp hx
    rw [objFind_found hwy.1 hy v]
    exact dynEq_refl v (wfObj_mem hwx.2 hx) (nanFreeObj_mem hnf hx)
  simp [dynEq, tagOfP, tagArray, tagObject, bne, Payload.asObject,
    exc_bind_ok, hperm.length_eq, hobj]

/-! ### Dispatch behavior of the public facade operations -/

theorem asArrayI_array {es : List (Nat × Payload)} :
    asArrayI (tagArray, .array es) = .ok es := by
  simp [asArrayI]

theorem asArrayI_not_array {v : Impl} (h : v.1 ≠ tagArray) :
    asArrayI v = .error .invalidAccess := by
  simp [asArrayI, beq_iff_eq, h]

theorem asObjectI_object {os : List (String × Nat × Payload)} :
    asObjectI (tagObject, .object os) = .ok os := by
  simp [asObjectI]

theorem asObjectI_not_object {v : Impl} (h : v.1 ≠ tagObject) :
    asObjectI v = .error .invalidAccess := by
  simp [asObjectI, beq_iff_eq, h]

theorem wfP_resolvePayload (x : CxxVal) (hx : valWF x = true) :
    wfP (resolvePayload x) = true := by
  cases x <;> simp_all [resolvePayload, valWF, wfP]

theorem assignVal_of_wf (v : Impl) (x : CxxVal) (h : wfI v = true) :
    assignVal v x = .ok (mkP (resolvePayload x)) :=
  emplace_of_wf v (resolvePayload x) h

theorem pushVal_array {es : List (Nat × Payload)} (x : CxxVal) :
    pushVal (tagArray, .array es) x =
      .ok (tagArray, .array (es ++ [mkP (resolvePayload x)])) := by
  simp [pushVal, pushP, asArrayI_array, exc_bind_ok]

theorem pushVal_not_array {v : Impl} (h : v.1 ≠ tagArray) (x : CxxVal) :
    pushVal v x = .error .invalidAccess := by
  simp [pushVal, pushP, asArrayI_not_array h, exc_bind_err]

theorem popI_not_array {v : Impl} (h : v.1 ≠ tagArray) :
    popI v = .error .invalidAccess := by
  simp [popI, asArrayI_not_array h, exc_bind_err]

theorem popI_empty : popI (tagArray, .array []) = .error .undefinedBehavior := by
  simp [popI, asArrayI_array, exc_bind_ok]

theorem popI_nonempty {es : List (Nat × Payload)} (h : es ≠ []) :
    popI (tagArray, .array es) =
      .ok (es.getLast h, (tagArray, .array es.dropLast)) := by
  simp [popI, asArrayI_array, exc_bind_ok, List.getLast?_eq_getLast es h,
    pure, Except.pure]

theorem containsI_object {os : List (String × Nat × Payload)} (k : String) :
    containsI (tagObject, .object os) k = .ok (lookupKey k os).isSome := by
  simp [containsI, asObjectI_object, exc_bind_ok]

theorem containsI_not_object {v : Impl} (h : v.1 ≠ tagObject) (k : String) :
    containsI v k = .error .invalidAccess := by
  simp [containsI, asObjectI_not_object h, exc_bind_err]

theorem indexMut_array_inbounds {es : List (Nat × Payload)} {k : DKey}
    {i : Nat} (hk : toIndexKey k = .ok i) {e : Nat × Payload}
    (he : es[i]? = some e) :
    indexMut (tagArray, .array es) k = .ok ((tagArray, .array es), e) := by
  simp [indexMut, hk, exc_bind_ok, asArrayI_array, he, pure, Except.pure]

theorem indexMut_array_oob {es : List (Nat × Payload)} {k : DKey}
    {i : Nat} (hk : toIndexKey k = .ok i) (he : es[i]? = none) :
    indexMut (tagArray, .array es) k = .error .outOfRange := by
  simp [indexMut, hk, exc_bind_ok, asArrayI_array, he]

theorem indexMut_object_found {os : List (String × Nat × Payload)} {k : DKey}
    {e : Impl} (he : lookupKey (toStringKey k) os = some e) :
    indexMut (tagObject, .object os) k = .ok ((tagObject, .object os), e) := by
  simp [indexMut, tagArray, tagObject, exc_bind_ok, asObjectI, he,
    pure, Except.pure]

theorem indexMut_object_missing {os : List (String × Nat × Payload)} {k : DKey}
    (he : lookupKey (toStringKey k) os = none) :
    indexMut (tagObject, .object os) k =
      .ok ((tagObject, .object (os ++ [(toStringKey k, undefImpl)])),
        undefImpl) := by
  simp [indexMut, tagArray, tagObject, exc_bind_ok, asObjectI, he,
    pure, Except.pure]

theorem indexMut_invalid {v : Impl} (h1 : v.1 ≠ tagArray)
    (h2 : v.1 ≠ tagObject) (k : DKey) :
    indexMut v k = .error .invalidAccess := by
  simp [indexMut, beq_iff_eq, h1, h2]

theorem indexConst_array_inbounds {es : List (Nat × Payload)} {k : DKey}
    {i : Nat} (hk : toIndexKey k = .ok i) {e : Nat × Payload}
    (he : es[i]? = some e) :
    indexConst (tagArray, .array es) k = .ok e := by
  simp [indexConst, hk, exc_bind_ok, asArrayI_array, he, pure, Except.pure]

theorem indexConst_array_oob {es : List (Nat × Payload)} {k : DKey}
    {i : Nat} (hk : toIndexKey k = .ok i) (he : es[i]? = none) :
    indexConst (tagArray, .array es) k = .error .outOfRange := by
  simp [indexConst, hk, exc_bind_ok, asArrayI_array, he]

theorem indexConst_object_found {os : List (String × Nat × Payload)} {k : DKey}
    {e : Impl} (he : lookupKey (toStringKey k) os = some e) :
    indexConst (tagObject, .object os) k = .ok e := by
  simp [indexConst, tagArray, tagObject, exc_bind_ok, asObjectI, he,
    pure, Except.pure]

theorem indexConst_object_missing {os : List (String × Nat × Payload)}
    {k : DKey} (he : lookupKey (toStringKey k) os = none) :
    indexConst (tagObject, .object os) k = .error .outOfRange := by
  simp [indexConst, tagArray, tagObject, exc_bind_ok, asObjectI, he]

theorem indexConst_invalid {v : Impl} (h1 : v.1 ≠ tagArray)
    (h2 : v.1 ≠ tagObject) (k : DKey) :
    indexConst v k = .error .invalidAccess := by
  simp [indexConst, beq_iff_eq, h1, h2]

theorem indexAssign_array {es : List (Nat × Payload)} {k : DKey} {i : Nat}
    (hk : toIndexKey k = .ok i) {e : Nat × Payload} (he : es[i]? = some e)
    (hwe : wfI e = true) (x : CxxVal) :
    indexAssign (tagArray, .array es) k x =
      .ok (tagArray, .array (es.set i (mkP (resolvePayload x)))) := by
  simp [indexAssign, hk, exc_bind_ok, asArrayI_array, he,
    assignVal_of_wf e x hwe, pure, Except.pure]

theorem indexAssign_invalid {v : Impl} (h1 : v.1 ≠ tagArray)
    (h2 : v.1 ≠ tagObject) (k : DKey) (x : CxxVal) :
    indexAssign v k x = .error .invalidAccess := by
  simp [indexAssign, beq_iff_eq, h1, h2]

theorem lookupKey_mem {os : List (String × Nat × Payload)} {k : String}
    {e : Impl} (h : lookupKey k os = some e) : (k, e) ∈ os := by
  induction os with
  | nil => cases h
  | cons x rest ih =>
    obtain ⟨xk, xv⟩ := x
    rw [lookupKey] at h
    by_cases hk : (k == xk) = true
    · rw [if_pos hk] at h
      obtain rfl : xv = e := by simpa using h
      have : k = xk := by simpa using hk
      subst this
      exact List.mem_cons_self _ _
    · rw [if_neg hk] at h
      exact List.mem_cons_of_mem _ (ih h)

/-- The invariant survives the mutable read path of `operator[]`,
including the insert-on-missing-key case. -/
theorem indexMut_wf {v : Impl} (hwf : wfI v = true) {k : DKey}
    {v2 e : Impl} (h : indexMut v k = .ok (v2, e)) :
    wfI v2 = true ∧ wfI e = true := by
  rw [wfI_iff] at hwf
  obtain ⟨t, p⟩ := v
  obtain ⟨h1, h2⟩ := hwf
  simp only at h1 h2
  subst h1
  by_cases ha : tagOfP p = tagArray
  · obtain ⟨es, rfl⟩ := shape_array ha
    simp only [tagOfP] at h
    rw [wfP] at h2
    cases hk : toIndexKey k with
    | error err =>
      rw [indexMut] at h
      simp [tagOfP, tagArray, hk, exc_bind_err] at h
    | ok i =>
      cases he : es[i]? with
      | none => rw [indexMut_array_oob hk he] at h; cases h
      | some e2 =>
        rw [indexMut_array_inbounds hk he] at h
        obtain ⟨rfl, rfl⟩ : (tagArray, Payload.array es) = v2 ∧ e2 = e := by
          simpa [Prod.ext_iff] using h
        refine ⟨by simp [wfI, tagOfP, wfP, h2], ?_⟩
        exact wfArr_mem h2 (List.getElem?_mem he)
  · by_cases ho : tagOfP p = tagObject
    · obtain ⟨os, rfl⟩ := shape_object ho
      simp only [tagOfP] at h
      rw [wfP] at h2
      simp only [Bool.and_eq_true] at h2
      cases he : lookupKey (toStringKey k) os with
      | some e2 =>
        rw [indexMut_object_found he] at h
        obtain ⟨rfl, rfl⟩ : (tagObject, Payload.object os) = v2 ∧ e2 = e := by
          simpa [Prod.ext_iff] using h
        refine ⟨by simp [wfI, tagOfP, wfP, h2.1, h2.2], ?_⟩
        exact wfObj_mem h2.2 (lookupKey_mem he)
      | none =>
        rw [indexMut_object_missing he] at h
        obtain ⟨rfl, rfl⟩ :
            (tagObject, Payload.object (os ++ [(toStringKey k, undefImpl)])) = v2 ∧
              undefImpl = e := by
          simpa [Prod.ext_iff] using h
        refine ⟨?_, wfI_undefImpl⟩
        have hnd := nodupKeys_append_absent h2.1 he undefImpl
        simp [wfI, tagOfP, wfP, hnd, wfObj_append, h2.2, wfObj, wfI_undefImpl]
    · rw [indexMut_invalid ha ho k] at h
      cases h

/-! ### Facts about the shared-strategy heap -/

theorem knownTag_mTagOf (p : MPayload) : knownTag (mTagOf p) = true := by
  cases p <;> rfl

theorem wfHeap_get {h : Heap} (hw : wfHeap h = true) {i : Nat} {c : MImpl}
    (hc : h[i]? = some c) :
    c.1 = mTagOf c.2 ∧ mAddrsOk h.length c.2 = true := by
  have hmem := List.all_eq_true.mp hw c (List.getElem?_mem hc)
  simpa [Bool.and_eq_true, beq_iff_eq] using hmem

theorem mAssignCell_ok {h : Heap} (hw : wfHeap h = true) {e : Nat}
    {cell : MImpl} (hc : h[e]? = some cell) (c : MImpl) :
    mAssignCell h e c = .ok (h.set e c) := by
  obtain ⟨t, p⟩ := cell
  have ht : t = mTagOf p := (wfHeap_get hw hc).1
  simp [mAssignCell, hc, ht, knownTag_mTagOf]

/-- Specification of `mcloneAddr`: the old heap is preserved as a
prefix, and the clone's root cell is freshly allocated. -/
def MCloneAddrSpec (fuel : Nat) : Prop :=
  ∀ h a h2 c, mcloneAddr fuel h a = .ok (h2, c) →
    h.length ≤ h2.length ∧ (∀ i, i < h.length → h2[i]? = h[i]?) ∧
    h.length ≤ c ∧ c < h2.length

/-- Specification of `mcloneList`: prefix preservation plus freshness of
every cloned element address. -/
def MCloneListSpec (fuel : Nat) : Prop :=
  ∀ h as h2 as2, mcloneList fuel h as = .ok (h2, as2) →
    h.length ≤ h2.length ∧ (∀ i, i < h.length → h2[i]? = h[i]?) ∧
    (∀ a2 ∈ as2, h.length ≤ a2 ∧ a2 < h2.length)

/-- Specification of `mcloneObjList`: prefix preservation plus freshness
of every cloned entry address. -/
def MCloneObjSpec (fuel : Nat) : Prop :=
  ∀ h os h2 os2, mcloneObjList fuel h os = .ok (h2, os2) →
    h.length ≤ h2.length ∧ (∀ i, i < h.length → h2[i]? = h[i]?) ∧
    (∀ e ∈ os2, h.length ≤ e.2 ∧ e.2 < h2.length)

theorem mcloneList_spec_of {fuel : Nat} (ha : MCloneAddrSpec fuel) :
    MCloneListSpec fuel := by
  intro h as
  induction as generalizing h with
  | nil =>
    intro h2 as2 hok
    rw [mcloneList] at hok
    obtain ⟨rfl, rfl⟩ : h = h2 ∧ [] = as2 := by
      simpa [Prod.ext_iff] using hok
    exact ⟨le_rfl, fun i _ => rfl, fun a2 hm => absurd hm (by simp)⟩
  | cons a rest ih =>
    intro h2 as2 hok
    rw [mcloneList] at hok
    cases h1 : mcloneAddr fuel h a with
    | error e => rw [h1] at hok; simp [exc_bind_err] at hok
    | ok pr =>
      obtain ⟨ha2, a2⟩ := pr
      rw [h1] at hok
      simp only [exc_bind_ok] at hok
      cases h2r : mcloneList fuel ha2 rest with
      | error e => rw [h2r] at hok; simp [exc_bind_err] at hok
      | ok pr2 =>
        obtain ⟨h3, rest2⟩ := pr2
        rw [h2r] at hok
        simp only [exc_bind_ok] at hok
        obtain ⟨he1, he2⟩ : h3 = h2 ∧ a2 :: rest2 = as2 := by
          simpa [Prod.ext_iff, pure, Except.pure] using hok
        obtain ⟨l1, p1, f1, f2⟩ := ha h a ha2 a2 h1
        obtain ⟨l2, p2, f3⟩ := ih ha2 h3 rest2 h2r
        rw [← he1, ← he2]
        refine ⟨le_trans l1 l2, fun i hi => ?_, fun x hm => ?_⟩
        · rw [p2 i (lt_of_lt_of_le hi l1), p1 i hi]
        · rcases List.mem_cons.mp hm with rfl | hm2
          · exact ⟨f1, lt_of_lt_of_le f2 l2⟩
          · obtain ⟨g1, g2⟩ := f3 x hm2
            exact ⟨le_trans l1 g1, g2⟩

theorem mcloneObjList_spec_of {fuel : Nat} (ha : MCloneAddrSpec fuel) :
    MCloneObjSpec fuel := by
  intro h os
  induction os generalizing h with
  | nil =>
    intro h2 os2 hok
    rw [mcloneObjList] at hok
    obtain ⟨rfl, rfl⟩ : h = h2 ∧ [] = os2 := by
      simpa [Prod.ext_iff] using hok
    exact ⟨le_rfl, fun i _ => rfl, fun e hm => absurd hm (by simp)⟩
  | cons a rest ih =>
    obtain ⟨k, addr⟩ := a
    intro h2 os2 hok
    rw [mcloneObjList] at hok
    cases h1 : mcloneAddr fuel h addr with
    | error e => rw [h1] at hok; simp [exc_bind_err] at hok
    | ok pr =>
      obtain ⟨ha2, a2⟩ := pr
      rw [h1] at hok
      simp only [exc_bind_ok] at hok
      cases h2r : mcloneObjList fuel ha2 rest with
      | error e => rw [h2r] at hok; simp [exc_bind_err] at hok
      | ok pr2 =>
        obtain ⟨h3, rest2⟩ := pr2
        rw [h2r] at hok
        simp only [exc_bind_ok] at hok
        obtain ⟨he1, he2⟩ : h3 = h2 ∧ (k, a2) :: rest2 = os2 := by
          simpa [Prod.ext_iff, pure, Except.pure] using hok
        obtain ⟨l1, p1, f1, f2⟩ := ha h addr ha2 a2 h1
        obtain ⟨l2, p2, f3⟩ := ih ha2 h3 rest2 h2r
        rw [← he1, ← he2]
        refine ⟨le_trans l1 l2, fun i hi => ?_, fun x hm => ?_⟩
        · rw [p2 i (lt_of_lt_of_le hi l1), p1 i hi]
        · rcases List.mem_cons.mp hm with rfl | hm2
          · exact ⟨f1, lt_of_lt_of_le f2 l2⟩
          · obtain ⟨g1, g2⟩ := f3 x hm2
            exact ⟨le_trans l1 g1, g2⟩

theorem exc_map_ok {α β : Type} (f : α → β) (a : α) :
    (f <$> (Except.ok a : Except Err α)) = .ok (f a) := rfl

theorem exc_map_err {α β : Type} (f : α → β) (e : Err) :
    (f <$> (Except.error e : Except Err α)) = .error e := rfl

theorem mcloneAddr_spec : ∀ fuel, MCloneAddrSpec fuel := by
  intro fuel
  induction fuel with
  | zero =>
    intro h a h2 c hok
    rw [mcloneAddr] at hok
    cases hok
  | succ n ih =>
    intro h a h2 c hok
    rw [mcloneAddr] at hok
    cases hha : h[a]? with
    | none => rw [hha] at hok; cases hok
    | some cell =>
      obtain ⟨t, p⟩ := cell
      rw [hha] at hok
      simp only at hok
      by_cases h6 : (t == tagArray) = true
      · rw [if_pos h6] at hok
        cases p with
        | array es =>
          simp only at hok
          cases hl : mcloneList n h es with
          | error e => rw [hl] at hok; simp [exc_map_err] at hok
          | ok pr =>
            obtain ⟨h1, es2⟩ := pr
            rw [hl] at hok
            obtain ⟨he1, he2⟩ :
                h1 ++ [(tagArray, MPayload.array es2)] = h2 ∧ h1.length = c := by
              simpa [alloc, pure, Except.pure, exc_bind_ok, Prod.ext_iff]
                using hok
            obtain ⟨l1, p1, _⟩ := mcloneList_spec_of ih h es h1 es2 hl
            rw [← he1, ← he2]
            refine ⟨?_, fun i hi => ?_, l1, ?_⟩
            · simpa using le_trans l1 (by simp)
            · rw [List.getElem?_append_left (lt_of_lt_of_le hi l1), p1 i hi]
            · simp
        | null => exact absurd hok (by simp)
        | boolean b => exact absurd hok (by simp)
        | integer i => exact absurd hok (by simp)
        | number x => exact absurd hok (by simp)
        | string s => exact absurd hok (by simp)
        | blob bs => exact absurd hok (by simp)
        | object os => exact absurd hok (by simp)
        | undefined => exact absurd hok (by simp)
      · rw [if_neg h6] at hok
        by_cases h7 : (t == tagObject) = true
        · rw [if_pos h7] at hok
          cases p with
          | object os =>
            simp only at hok
            cases hl : mcloneObjList n h os with
            | error e => rw [hl] at hok; simp [exc_map_err] at hok
            | ok pr =>
              obtain ⟨h1, os2⟩ := pr
              rw [hl] at hok
              obtain ⟨he1, he2⟩ :
                  h1 ++ [(tagObject, MPayload.object os2)] = h2 ∧
                    h1.length = c := by
                simpa [alloc, pure, Except.pure, exc_bind_ok, Prod.ext_iff]
                using hok
              obtain ⟨l1, p1, _⟩ := mcloneObjList_spec_of ih h os h1 os2 hl
              rw [← he1, ← he2]
              refine ⟨?_, fun i hi => ?_, l1, ?_⟩
              · simpa using le_trans l1 (by simp)
              · rw [List.getElem?_append_left (lt_of_lt_of_le hi l1), p1 i hi]
              · simp
          | null => exact absurd hok (by simp)
          | boolean b => exact absurd hok (by simp)
          | integer i => exact absurd hok (by simp)
          | number x => exact absurd hok (by simp)
          | string s => exact absurd hok (by simp)
          | blob bs => exact absurd hok (by simp)
          | array es => exact absurd hok (by simp)
          | undefined => exact absurd hok (by simp)
        · rw [if_neg h7] at hok
          by_cases hk : knownTag t = true
          · rw [if_pos hk] at hok
            obtain ⟨he1, he2⟩ : h ++ [(t, p)] = h2 ∧ h.length = c := by
              simpa [alloc, pure, Except.pure, exc_bind_ok, Prod.ext_iff]
                using hok
            rw [← he1, ← he2]
            refine ⟨by simp, fun i hi => List.getElem?_append_left hi, le_rfl,
              by simp⟩
          · rw [if_neg hk] at hok
            cases hok

theorem mLookupKey_mem {os : List (String × Nat)} {k : String} {e : Nat}
    (h : mLookupKey k os = some e) : (k, e) ∈ os := by
  induction os with
  | nil => cases h
  | cons x rest ih =>
    obtain ⟨xk, xv⟩ := x
    rw [mLookupKey] at h
    by_cases hk : (k == xk) = true
    · rw [if_pos hk] at h
      obtain rfl : xv = e := by simpa using h
      have : k = xk := by simpa using hk
      subst this
      exact List.mem_cons_self _ _
    · rw [if_neg hk] at h
      exact List.mem_cons_of_mem _ (ih h)

theorem mLookupKey_append_self {os : List (String × Nat)} {k : String}
    (h : mLookupKey k os = none) (f : Nat) :
    mLookupKey k (os ++ [(k, f)]) = some f := by
  induction os with
  | nil => simp [mLookupKey]
  | cons x rest ih =>
    obtain ⟨xk, xv⟩ := x
    rw [mLookupKey] at h
    by_cases hk : (k == xk) = true
    · rw [if_pos hk] at h
      cases h
    · rw [if_neg hk] at h
      rw [List.cons_append, mLookupKey, if_neg hk]
      exact ih h

theorem mAddrsOk_object_mem {bound : Nat} {os : List (String × Nat)}
    (h : mAddrsOk bound (.object os) = true) {k : String} {e : Nat}
    (hm : (k, e) ∈ os) : e < bound := by
  rw [mAddrsOk] at h
  have := List.all_eq_true.mp h (k, e) hm
  simpa using this

theorem getElem?_lt {α : Type} {l : List α} {i : Nat} {a : α}
    (h : l[i]? = some a) : i < l.length :=
  (List.getElem?_eq_some.mp h).1

/-- Reading the same key through the same object cell in two heaps that
agree on the cell and on the element's cell gives the same outcome. -/
theorem mReadKey_congr {h3 h2 : Heap} {c : Nat} {k : String}
    {os2 : List (String × Nat)}
    (hc3 : h3[c]? = some (tagObject, .object os2))
    (hc2 : h2[c]? = some (tagObject, .object os2))
    (he : ∀ e2, mLookupKey k os2 = some e2 → h3[e2]? = h2[e2]?) :
    mReadKey h3 c k = mReadKey h2 c k := by
  rw [mReadKey, mReadKey, hc3, hc2]
  cases hl : mLookupKey k os2 with
  | none => simp [tagObject, tagArray, hl]
  | some e2 => simp [tagObject, tagArray, hl, he e2 hl]

/-- Writing `a[key] = x` through one alias and reading the key back
through the other alias (the same cell) observes the write. -/
theorem mSetKey_visible {h : Heap} (hw : wfHeap h = true) {a : Nat}
    {os : List (String × Nat)} (hha : h[a]? = some (tagObject, .object os))
    (k : String) (x : MImpl)
    (hne : ∀ e, mLookupKey k os = some e → e ≠ a) :
    ∃ h3, mSetKey h a k x = .ok h3 ∧
      mReadKey h3 (mshareCopy a) k = .ok x := by
  have haLt : a < h.length := getElem?_lt hha
  rw [mSetKey, hha]
  cases hl : mLookupKey k os with
  | some e =>
    have heLt : e < h.length :=
      mAddrsOk_object_mem (wfHeap_get hw hha).2 (mLookupKey_mem hl)
    have hcell : h[e]? = some h[e] := List.getElem?_eq_getElem heLt
    refine ⟨h.set e x, ?_, ?_⟩
    · simp [tagObject, tagArray, hl, mAssignCell_ok hw hcell x]
    · rw [mReadKey, mshareCopy, List.getElem?_set_ne (hne e hl), hha]
      simp [tagObject, tagArray, hl, List.getElem?_set_self heLt, pure,
        Except.pure]
  | none =>
    have hset1 : ((h ++ [(tagUndefined, MPayload.undefined)]).set a
        (tagObject, MPayload.object (os ++ [(k, h.length)])))[h.length]? =
        some (tagUndefined, MPayload.undefined) := by
      rw [List.getElem?_set_ne (by omega), List.getElem?_concat_length]
    refine ⟨((h ++ [(tagUndefined, MPayload.undefined)]).set a
      (tagObject, MPayload.object (os ++ [(k, h.length)]))).set h.length x,
      ?_, ?_⟩
    · have hgm := (List.getElem?_eq_some.mp hset1).2
      simp only [tagUndefined, tagObject] at hgm
      simp [tagObject, tagArray, hl, alloc, mAssignCell, hset1, knownTag,
        tagUndefined, hgm]
    · rw [mReadKey, mshareCopy]
      rw [List.getElem?_set_ne (show h.length ≠ a by omega),
        List.getElem?_set_self (by simp; omega), ]
      simp [tagObject, tagArray, mLookupKey_append_self hl h.length,
        List.getElem?_set_self (show h.length <
          ((h ++ [(tagUndefined, MPayload.undefined)]).set a
            (tagObject, MPayload.object (os ++ [(k, h.length)]))).length
          by simp), pure, Except.pure]

/-- After a deep clone, writing any key through the original value does
not change what the clone's key reads. -/
theorem mclone_independent {h : Heap} (hw : wfHeap h = true) {a : Nat}
    {os : List (String × Nat)} (hha : h[a]? = some (tagObject, .object os))
    {fuel : Nat} {h2 : Heap} {c : Nat}
    (hcl : mcloneAddr fuel h a = .ok (h2, c)) (k : String) (x : MImpl)
    {h3 : Heap} (hset : mSetKey h2 a k x = .ok h3) :
    mReadKey h3 c k = mReadKey h2 c k := by
  have haLt : a < h.length := getElem?_lt hha
  cases fuel with
  | zero => rw [mcloneAddr] at hcl; cases hcl
  | succ n =>
    rw [mcloneAddr, hha] at hcl
    simp only at hcl
    rw [if_neg (by simp [tagObject, tagArray]),
      if_pos (by simp [tagObject])] at hcl
    cases hl : mcloneObjList n h os with
    | error e => simp [hl, exc_bind_err] at hcl
    | ok pr =>
      obtain ⟨h1, os2⟩ := pr
      obtain ⟨he1, he2⟩ : h1 ++ [(tagObject, MPayload.object os2)] = h2 ∧
          h1.length = c := by
        simpa [hl, alloc, pure, Except.pure, exc_bind_ok, Prod.ext_iff]
          using hcl
      obtain ⟨l1, p1, f3⟩ :=
        mcloneObjList_spec_of (mcloneAddr_spec n) h os h1 os2 hl
      have hc2 : h2[c]? = some (tagObject, MPayload.object os2) := by
        rw [← he1, ← he2, List.getElem?_concat_length]
      have hpre : ∀ i, i < h.length → h2[i]? = h[i]? := by
        intro i hi
        rw [← he1, List.getElem?_append_left (lt_of_lt_of_le hi l1), p1 i hi]
      have hcGe : h.length ≤ c := by omega
      have hcLt2 : c < h2.length := by
        rw [← he1, ← he2]
        simp
      have ha2 : h2[a]? = some (tagObject, MPayload.object os) := by
        rw [hpre a haLt, hha]
      have hosFresh : ∀ e2, mLookupKey k os2 = some e2 →
          h.length ≤ e2 ∧ e2 < h1.length := by
        intro e2 hm
        exact f3 (k, e2) (mLookupKey_mem hm)
      rw [mSetKey, ha2] at hset
      simp [tagObject, tagUndefined] at hset
      cases hl2 : mLookupKey k os with
      | some e =>
        have heLt : e < h.length :=
          mAddrsOk_object_mem (wfHeap_get hw hha).2 (mLookupKey_mem hl2)
        have hcell : h2[e]? = some h[e] := by
          rw [hpre e heLt]
          exact List.getElem?_eq_getElem heLt
        have hkn : knownTag h[e].1 = true := by
          have hcell0 : h[e]? = some h[e] := List.getElem?_eq_getElem heLt
          rw [(wfHeap_get hw hcell0).1]
          exact knownTag_mTagOf _
        have hset2 : h2.set e x = h3 := by
          simp only [hl2] at hset
          rw [mAssignCell, hcell] at hset
          rcases hq : h[e] with ⟨t0, p0⟩
          rw [hq] at hset hkn
          simp only at hkn
          simpa [hkn] using hset
        subst hset2
        refine mReadKey_congr ?_ hc2 ?_
        · rw [List.getElem?_set_ne (by omega), hc2]
        · intro e2 hm
          obtain ⟨g1, _⟩ := hosFresh e2 hm
          rw [List.getElem?_set_ne (by omega)]
      | none =>
        have hset1 : ((h2 ++ [((4294967295 : Nat), MPayload.undefined)]).set a
            ((7 : Nat), MPayload.object (os ++ [(k, h2.length)])))[h2.length]? =
            some ((4294967295 : Nat), MPayload.undefined) := by
          rw [List.getElem?_set_ne (by omega), List.getElem?_concat_length]
        have hset2 : ((h2 ++ [((4294967295 : Nat), MPayload.undefined)]).set a
            ((7 : Nat), MPayload.object (os ++ [(k, h2.length)]))).set
              h2.length x = h3 := by
          simp only [hl2, alloc] at hset
          rw [mAssignCell, hset1] at hset
          simpa [knownTag, tagUndefined] using hset
        subst hset2
        refine mReadKey_congr ?_ hc2 ?_
        · rw [List.getElem?_set_ne (by omega),
            List.getElem?_set_ne (by omega),
            List.getElem?_append_left hcLt2, hc2]
        · intro e2 hm
          obtain ⟨g1, g2⟩ := hosFresh e2 hm
          have he2Lt : e2 < h2.length := by omega
          rw [List.getElem?_set_ne (by omega),
            List.getElem?_set_ne (by omega),
            List.getElem?_append_left he2Lt]

/-! ### Push, Pop and indexing never reach the fatal path and preserve
the invariant -/

theorem pushVal_wf {v : Impl} (hv : wfI v = true) (x : CxxVal)
    (hx : valWF x = true) {r : Impl} (h : pushVal v x = .ok r) :
    wfI r = true := by
  by_cases ha : v.1 = tagArray
  · rw [wfI_iff] at hv
    obtain ⟨t, p⟩ := v
    obtain ⟨h1, h2⟩ := hv
    simp only at h1 h2 ha
    subst h1
    obtain ⟨es, rfl⟩ := shape_array ha
    rw [ha] at h
    rw [pushVal_array x] at h
    obtain rfl : (tagArray, Payload.array (es ++ [mkP (resolvePayload x)])) = r := by
      simpa using h
    rw [wfP] at h2
    have hw1 : wfArr [mkP (resolvePayload x)] = true := by
      rw [wfArr, mkP]
      simp [wfArr, wfP_resolvePayload x hx]
    simp [wfI, tagOfP, wfP, wfArr_append, h2, hw1]
  · rw [pushVal_not_array ha x] at h
    cases h

theorem pushVal_no_invalidTag {v : Impl} (hv : wfI v = true) (x : CxxVal) :
    pushVal v x ≠ .error .invalidTag := by
  by_cases ha : v.1 = tagArray
  · rw [wfI_iff] at hv
    obtain ⟨t, p⟩ := v
    obtain ⟨h1, _⟩ := hv
    simp only at h1 ha
    subst h1
    obtain ⟨es, rfl⟩ := shape_array ha
    rw [ha, pushVal_array x]
    simp
  · rw [pushVal_not_array ha x]
    simp

theorem popI_wf {v : Impl} (hv : wfI v = true) {r v2 : Impl}
    (h : popI v = .ok (r, v2)) : wfI r = true ∧ wfI v2 = true := by
  by_cases ha : v.1 = tagArray
  · rw [wfI_iff] at hv
    obtain ⟨t, p⟩ := v
    obtain ⟨h1, h2⟩ := hv
    simp only at h1 h2 ha
    subst h1
    obtain ⟨es, rfl⟩ := shape_array ha
    rw [ha] at h
    rw [wfP] at h2
    cases es with
    | nil => rw [popI_empty] at h; cases h
    | cons e rest =>
      rw [popI_nonempty (List.cons_ne_nil e rest)] at h
      obtain ⟨rfl, rfl⟩ : (e :: rest).getLast (List.cons_ne_nil e rest) = r ∧
          (tagArray, Payload.array (e :: rest).dropLast) = v2 := by
        simpa [Prod.ext_iff] using h
      refine ⟨wfArr_mem h2 (List.getLast_mem _), ?_⟩
      simp [wfI, tagOfP, wfP, wfArr_dropLast h2]
  · rw [popI_not_array ha] at h
    cases h

theorem popI_no_invalidTag {v : Impl} (hv : wfI v = true) :
    popI v ≠ .error .invalidTag := by
  by_cases ha : v.1 = tagArray
  · rw [wfI_iff] at hv
    obtain ⟨t, p⟩ := v
    obtain ⟨h1, _⟩ := hv
    simp only at h1 ha
    subst h1
    obtain ⟨es, rfl⟩ := shape_array ha
    rw [ha]
    cases es with
    | nil => rw [popI_empty]; simp
    | cons e rest =>
      rw [popI_nonempty (List.cons_ne_nil e rest)]
      simp
  · rw [popI_not_array ha]
    simp

theorem indexMut_no_invalidTag {v : Impl} (hv : wfI v = true) (k : DKey) :
    indexMut v k ≠ .error .invalidTag := by
  rw [wfI_iff] at hv
  obtain ⟨t, p⟩ := v
  obtain ⟨h1, h2⟩ := hv
  simp only at h1 h2
  subst h1
  by_cases ha : tagOfP p = tagArray
  · obtain ⟨es, rfl⟩ := shape_array ha
    simp only [tagOfP]
    cases hk : toIndexKey k with
    | error err =>
      have herr : err = Err.undefinedBehavior := by
        cases k with
        | kInt i => simp [toIndexKey] at hk
        | kStr s =>
          simp only [toIndexKey, stoulModel] at hk
          cases hm : (s.takeWhile Char.isDigit).toNat? with
          | some n => rw [hm] at hk; cases hk
          | none => rw [hm] at hk; simp at hk; exact hk.symm
      subst herr
      simp [indexMut, tagOfP, tagArray, hk, exc_bind_err]
    | ok i =>
      cases he : es[i]? with
      | none => rw [indexMut_array_oob hk he]; simp
      | some e => rw [indexMut_array_inbounds hk he]; simp
  · by_cases ho : tagOfP p = tagObject
    · obtain ⟨os, rfl⟩ := shape_object ho
      simp only [tagOfP]
      cases he : lookupKey (toStringKey k) os with
      | some e => rw [indexMut_object_found he]; simp
      | none => rw [indexMut_object_missing he]; simp
    · rw [indexMut_invalid ha ho k]
      simp

/-! ### The claims -/

/-- C1: every public operation — construction, `Emplace`, generic
assignment, copy, move, `Push`, `Pop`, indexing, `Clone`, destruction —
preserves the invariant that the discriminator agrees with the live
payload; destroying or replacing a value holding any known alternative
(including Boolean) tears it down to Undefined and never reaches the
fatal invalid-tag path. -/
theorem claim_C1 (v w : Impl) (p : Payload) (x : CxxVal) (k : DKey)
    (hv : wfI v = true) (hw : wfI w = true) (hp : wfP p = true)
    (hx : valWF x = true) :
    wfI undefImpl = true ∧
    (fromP p = .ok (mkP p) ∧ wfI (mkP p) = true) ∧
    destroyIfNeeded v = .ok undefImpl ∧
    emplace v p = .ok (mkP p) ∧
    (assignVal v x = .ok (mkP (resolvePayload x)) ∧
      wfI (mkP (resolvePayload x)) = true) ∧
    copyConstruct v = .ok v ∧
    copyAssign w v = .ok v ∧
    moveConstruct v = .ok (v, undefImpl) ∧
    moveAssign w v = .ok (v, undefImpl) ∧
    cloneI v = .ok v ∧
    ((∀ r, pushVal v x = .ok r → wfI r = true) ∧
      pushVal v x ≠ .error .invalidTag) ∧
    ((∀ r v2, popI v = .ok (r, v2) → wfI r = true ∧ wfI v2 = true) ∧
      popI v ≠ .error .invalidTag) ∧
    ((∀ v2 e, indexMut v k = .ok (v2, e) → wfI v2 = true ∧ wfI e = true) ∧
      indexMut v k ≠ .error .invalidTag) :=
  ⟨wfI_undefImpl, ⟨fromP_eq p, wfI_mkP p hp⟩, destroy_of_wf v hv,
    emplace_of_wf v p hv,
    ⟨assignVal_of_wf v x hv, wfI_mkP _ (wfP_resolvePayload x hx)⟩,
    copyConstruct_id v hv, copyAssign_id w v hw hv,
    moveConstruct_of_wf v hv, moveAssign_of_wf w v hw hv, cloneI_id v hv,
    ⟨fun _ h => pushVal_wf hv x hx h, pushVal_no_invalidTag hv x⟩,
    ⟨fun _ _ h => popI_wf hv h, popI_no_invalidTag hv⟩,
    ⟨fun _ _ h => indexMut_wf hv h, indexMut_no_invalidTag hv k⟩⟩

theorem claim_C1_witness :
    wfI (tagBoolean, Payload.boolean true) = true ∧
    wfI (tagString, Payload.string "a") = true ∧
    wfP Payload.null = true ∧
    valWF (CxxVal.cInt 5) = true ∧
    destroyIfNeeded (tagBoolean, Payload.boolean true) = .ok undefImpl :=
  ⟨rfl, rfl, rfl, rfl,
    (claim_C1 (tagBoolean, Payload.boolean true)
      (tagString, Payload.string "a") Payload.null (CxxVal.cInt 5)
      (DKey.kInt 0) rfl rfl rfl rfl).2.2.1⟩

/-- C2: under the Owned strategy, copy construction and copy assignment
reproduce the source's active alternative and value, and mutating an
element of the copy's Array leaves the corresponding element of the
original unchanged. -/
theorem claim_C2 (v w : Impl) (hv : wfI v = true) (hw : wfI w = true) :
    copyConstruct v = .ok v ∧ copyAssign w v = .ok v ∧
    (∀ es k i x e b2, v = (tagArray, Payload.array es) →
      toIndexKey k = .ok i → es[i]? = some e →
      indexAssign v k x = .ok b2 →
      indexConst b2 k = .ok (mkP (resolvePayload x)) ∧
      indexConst v k = .ok e) := by
  refine ⟨copyConstruct_id v hv, copyAssign_id w v hw hv, ?_⟩
  rintro es k i x e b2 rfl hk he hb
  have hwe : wfI e = true := by
    rw [wfI_iff] at hv
    exact wfArr_mem (by simpa [wfP] using hv.2) (List.getElem?_mem he)
  rw [indexAssign_array hk he hwe x] at hb
  obtain rfl :
      (tagArray, Payload.array (es.set i (mkP (resolvePayload x)))) = b2 := by
    simpa using hb
  have hiLt : i < es.length := (List.getElem?_eq_some.mp he).1
  exact ⟨indexConst_array_inbounds hk (List.getElem?_set_self hiLt),
    indexConst_array_inbounds hk he⟩

theorem claim_C2_witness :
    wfI (tagArray, Payload.array [(tagInteger, Payload.integer 1)]) = true ∧
    wfI undefImpl = true ∧
    copyConstruct (tagArray, Payload.array [(tagInteger, Payload.integer 1)]) =
      .ok (tagArray, Payload.array [(tagInteger, Payload.integer 1)]) :=
  ⟨rfl, rfl,
    (claim_C2 (tagArray, Payload.array [(tagInteger, Payload.integer 1)])
      undefImpl rfl rfl).1⟩

/-- C3: after a move (construction or assignment) of a value into a
destination, the destination holds exactly the alternative and value the
source held, and the moved-from value is observably Undefined. -/
theorem claim_C3 (v w : Impl) (hv : wfI v = true) (hw : wfI w = true) :
    moveConstruct v = .ok (v, undefImpl) ∧
    moveAssign w v = .ok (v, undefImpl) ∧
    holdsUndefined undefImpl = true :=
  ⟨moveConstruct_of_wf v hv, moveAssign_of_wf w v hw hv, rfl⟩

theorem claim_C3_witness :
    wfI (tagString, Payload.string "hi") = true ∧
    moveConstruct (tagString, Payload.string "hi") =
      .ok ((tagString, Payload.string "hi"), undefImpl) :=
  ⟨rfl,
    (claim_C3 (tagString, Payload.string "hi") undefImpl rfl rfl).1⟩

/-- C4: the best-fit resolver maps every representative input type to
exactly one alternative under the fixed precedence Boolean (exact bool
only), Integer (any integral type), Number (any floating-point type),
then String, Blob, Array, Object by constructibility; and generic
assignment stores the argument as the resolved alternative, replacing
whatever alternative was previously active. -/
theorem claim_C4 (t : CxxType) (v : Impl) (x : CxxVal)
    (hv : wfI v = true) :
    (bestFitFor t).isSome = true ∧
    (isBoolT t = true → bestFitFor t = some .boolean) ∧
    (isBoolT t = false → isIntegralT t = true →
      bestFitFor t = some .integer) ∧
    (isBoolT t = false → isIntegralT t = false → isFloatingT t = true →
      bestFitFor t = some .number) ∧
    (isBoolT t = false → isIntegralT t = false → isFloatingT t = false →
      constructibleString t = true → bestFitFor t = some .string) ∧
    (isBoolT t = false → isIntegralT t = false → isFloatingT t = false →
      constructibleString t = false → constructibleBlob t = true →
      bestFitFor t = some .blob) ∧
    (isBoolT t = false → isIntegralT t = false → isFloatingT t = false →
      constructibleString t = false → constructibleBlob t = false →
      constructibleArray t = true → bestFitFor t = some .array) ∧
    (isBoolT t = false → isIntegralT t = false → isFloatingT t = false →
      constructibleString t = false → constructibleBlob t = false →
      constructibleArray t = false → constructibleObject t = true →
      bestFitFor t = some .object) ∧
    assignVal v x = .ok (mkP (resolvePayload x)) ∧
    (∀ a, bestFitFor (typeOfVal x) = some a →
      (mkP (resolvePayload x)).1 = altTag a) := by
  have hres : ∀ a, bestFitFor (typeOfVal x) = some a →
      (mkP (resolvePayload x)).1 = altTag a := by
    intro a ha
    cases x <;> simp [typeOfVal, bestFitFor, isBoolT, isIntegralT,
      isFloatingT, constructibleString, constructibleBlob,
      constructibleArray, constructibleObject] at ha <;>
      (subst ha; rfl)
  refine ⟨?_, ?_, ?_, ?_, ?_, ?_, ?_, ?_, assignVal_of_wf v x hv, hres⟩ <;>
    cases t <;> simp [bestFitFor, isBoolT, isIntegralT, isFloatingT,
      constructibleString, constructibleBlob, constructibleArray,
      constructibleObject]

theorem claim_C4_witness :
    isBoolT CxxType.tChar = false ∧ isIntegralT CxxType.tChar = true ∧
    wfI (tagNull, Payload.null) = true ∧
    bestFitFor CxxType.tChar = some Alt.integer :=
  ⟨rfl, rfl, rfl,
    (claim_C4 CxxType.tChar (tagNull, Payload.null)
      (CxxVal.cDouble (F64.fin 1)) rfl).2.2.1 rfl rfl⟩

/-- C5: indexed access dispatches on the value's current alternative,
not the key's type: Object converts the key to text and looks it up
(mutable access inserts a fresh Undefined entry when the key is absent,
the checked path fails instead), Array converts the key to an index and
bounds-checks it, and every other alternative fails with an
invalid-access error. -/
theorem claim_C5 (v : Impl) (k : DKey) :
    (∀ es, v = (tagArray, Payload.array es) → ∀ i, toIndexKey k = .ok i →
      (∀ e, es[i]? = some e →
        indexMut v k = .ok (v, e) ∧ indexConst v k = .ok e) ∧
      (es[i]? = none →
        indexMut v k = .error .outOfRange ∧
        indexConst v k = .error .outOfRange)) ∧
    (∀ os, v = (tagObject, Payload.object os) →
      (∀ e, lookupKey (toStringKey k) os = some e →
        indexMut v k = .ok (v, e) ∧ indexConst v k = .ok e) ∧
      (lookupKey (toStringKey k) os = none →
        indexMut v k =
          .ok ((tagObject,
            Payload.object (os ++ [(toStringKey k, undefImpl)])),
            undefImpl) ∧
        indexConst v k = .error .outOfRange)) ∧
    (v.1 ≠ tagArray → v.1 ≠ tagObject →
      indexMut v k = .error .invalidAccess ∧
      indexConst v k = .error .invalidAccess) := by
  refine ⟨?_, ?_,
    fun h1 h2 => ⟨indexMut_invalid h1 h2 k, indexConst_invalid h1 h2 k⟩⟩
  · rintro es rfl i hk
    exact ⟨fun e he => ⟨indexMut_array_inbounds hk he,
        indexConst_array_inbounds hk he⟩,
      fun he => ⟨indexMut_array_oob hk he, indexConst_array_oob hk he⟩⟩
  · rintro os rfl
    exact ⟨fun e he => ⟨indexMut_object_found he,
        indexConst_object_found he⟩,
      fun he => ⟨indexMut_object_missing he, indexConst_object_missing he⟩⟩

theorem claim_C5_witness :
    (tagNumber, Payload.number (F64.fin 2)).1 ≠ tagArray ∧
    (tagNumber, Payload.number (F64.fin 2)).1 ≠ tagObject ∧
    indexMut (tagNumber, Payload.number (F64.fin 2)) (DKey.kInt 0) =
      .error .invalidAccess :=
  ⟨by decide, by decide,
    ((claim_C5 (tagNumber, Payload.number (F64.fin 2))
      (DKey.kInt 0)).2.2 (by decide) (by decide)).1⟩

/-- C6 (amended): `Pop` on a value holding a non-empty Array removes and
returns the last element, decreasing the size by one, and `Pop` on a
value not holding Array fails with an invalid-access error; but on a
value holding an empty Array the source calls `vector::back()` and
`pop_back()` unchecked, which is undefined behaviour rather than the
invalid-access error. -/
theorem claim_C6 (v : Impl) :
    (∀ es, v = (tagArray, Payload.array es) → ∀ (hne : es ≠ []),
      popI v = .ok (es.getLast hne, (tagArray, Payload.array es.dropLast)) ∧
      es.dropLast.length + 1 = es.length) ∧
    (v.1 ≠ tagArray → popI v = .error .invalidAccess) ∧
    (v = (tagArray, Payload.array []) →
      popI v = .error .undefinedBehavior) := by
  refine ⟨?_, fun h => popI_not_array h, ?_⟩
  · rintro es rfl hne
    refine ⟨popI_nonempty hne, ?_⟩
    have hpos : 0 < es.length := List.length_pos.mpr hne
    rw [List.length_dropLast]
    omega
  · rintro rfl
    exact popI_empty

theorem claim_C6_witness :
    ([(tagInteger, Payload.integer 9)] : List (Nat × Payload)) ≠ [] ∧
    popI (tagArray, Payload.array [(tagInteger, Payload.integer 9)]) =
      .ok ((tagInteger, Payload.integer 9),
        (tagArray, Payload.array [])) := by
  refine ⟨by simp, ?_⟩
  have h := ((claim_C6
      (tagArray, Payload.array [(tagInteger, Payload.integer 9)])).1
    [(tagInteger, Payload.integer 9)] rfl (by simp)).1
  simpa using h

/-- C6 shows the original statement false: on an empty Array, `Pop` is
an unchecked `vector::back()` — undefined behaviour — and does not
surface the invalid-access error. -/
theorem claim_C6_counterexample :
    popI (tagArray, Payload.array []) = .error .undefinedBehavior ∧
    popI (tagArray, Payload.array []) ≠ .error .invalidAccess := by
  refine ⟨popI_empty, ?_⟩
  rw [popI_empty]
  exact fun h => Err.noConfusion (Except.error.inj h)

/-- C7 (amended): equality is symmetric and structural — mismatched
discriminators compare unequal without raising an error, Arrays compare
by length and pairwise order so `[1,2]` does not equal `[2,1]`, and
Objects with permuted entry lists compare equal — and it is reflexive on
every well-formed value whose Number payloads are NaN-free; a Number
holding NaN does not compare equal to itself. -/
theorem claim_C7 (a b : Impl) (xs ys : List (String × Nat × Payload)) :
    (wfI a = true → nanFreeP a.2 = true → dynEq a a = .ok true) ∧
    (wfI a = true → wfI b = true → dynEq a b = dynEq b a) ∧
    (a.1 ≠ b.1 → dynEq a b = .ok false) ∧
    dynEq (tagArray, Payload.array
        [(tagInteger, Payload.integer 1), (tagInteger, Payload.integer 2)])
      (tagArray, Payload.array
        [(tagInteger, Payload.integer 2), (tagInteger, Payload.integer 1)]) =
      .ok false ∧
    (xs.Perm ys → nodupKeys xs = true → wfObj xs = true →
      nodupKeys ys = true → wfObj ys = true → nanFreeObj xs = true →
      dynEq (tagObject, Payload.object xs) (tagObject, Payload.object ys) =
        .ok true) := by
  refine ⟨fun hw hn => dynEq_refl a hw hn,
    fun ha hb => dynEq_symm a b ha hb,
    fun h => dynEq_tag_mismatch a b h, ?_, ?_⟩
  · simp [dynEq, arrEq, scalarEq, Payload.asArray, Payload.asInteger,
      tagNull, tagBoolean, tagInteger, tagNumber, tagString, tagBlob,
      tagArray, tagObject, exc_bind_ok, pure, Except.pure]
  · intro hperm hnx hwx hny hwy hnf
    exact dynEq_object_perm xs ys hperm (by simp [wfP, hnx, hwx])
      (by simp [wfP, hny, hwy]) (by simp [nanFreeP, hnf])

theorem claim_C7_witness :
    wfI (tagInteger, Payload.integer 5) = true ∧
    nanFreeP (Payload.integer 5) = true ∧
    dynEq (tagInteger, Payload.integer 5) (tagInteger, Payload.integer 5) =
      .ok true :=
  ⟨rfl, rfl,
    (claim_C7 (tagInteger, Payload.integer 5) undefImpl [] []).1 rfl rfl⟩

/-- C7 shows the original statement false at a concrete input: a Number
value holding NaN satisfies the invariant yet does not compare equal to
itself, so equality is not reflexive for every pair of values. -/
theorem claim_C7_counterexample :
    wfI (tagNumber, Payload.number F64.nan) = true ∧
    dynEq (tagNumber, Payload.number F64.nan)
      (tagNumber, Payload.number F64.nan) = .ok false := by
  refine ⟨rfl, ?_⟩
  simp [dynEq, scalarEq, Payload.asNumber, F64.feq, tagNull, tagBoolean,
    tagInteger, tagNumber, tagString, tagBlob, tagArray, tagObject,
    exc_bind_ok, pure, Except.pure]

/-- C8: under the Shared ownership strategy (`DynamicManaged`), copying
a value holding Object aliases the same storage, so a mutation through
the original at a key is visible through the copy at that key; and the
value produced by `Clone` is independent — a subsequent mutation through
the original at any key does not change what the clone reads there. -/
theorem claim_C8 {h : Heap} (hw : wfHeap h = true) {a : Nat}
    {os : List (String × Nat)}
    (hha : h[a]? = some (tagObject, .object os)) (k : String)
    (x : MImpl) :
    ((∀ e, mLookupKey k os = some e → e ≠ a) →
      mshareCopy a = a ∧
      ∃ h3, mSetKey h a k x = .ok h3 ∧
        mReadKey h3 (mshareCopy a) k = .ok x) ∧
    (∀ fuel h2 c, mcloneAddr fuel h a = .ok (h2, c) →
      ∀ h3, mSetKey h2 a k x = .ok h3 →
        mReadKey h3 c k = mReadKey h2 c k) :=
  ⟨fun hne => ⟨rfl, mSetKey_visible hw hha k x hne⟩,
    fun _ _ _ hcl _ hset => mclone_independent hw hha hcl k x hset⟩

theorem claim_C8_witness :
    wfHeap [((7 : Nat), MPayload.object [("k", 1)]),
      ((2 : Nat), MPayload.integer 42)] = true ∧
    ∃ h3, mSetKey [((7 : Nat), MPayload.object [("k", 1)]),
        ((2 : Nat), MPayload.integer 42)] 0 "k"
        ((2 : Nat), MPayload.integer 7) = .ok h3 ∧
      mReadKey h3 (mshareCopy 0) "k" =
        .ok ((2 : Nat), MPayload.integer 7) := by
  have hne : ∀ e, mLookupKey "k" [("k", 1)] = some e → e ≠ 0 := by
    intro e he
    obtain rfl : (1 : Nat) = e := Option.some.inj he
    decide
  exact ⟨rfl, ((@claim_C8 [((7 : Nat), MPayload.object [("k", 1)]),
    ((2 : Nat), MPayload.integer 42)] rfl 0 [("k", 1)] rfl "k"
    ((2 : Nat), MPayload.integer 7)).1 hne).2⟩

/-- C9 (amended): starting from a value constructed as an Array of
size 3 whose elements are all Undefined, pushing Integer 42, then
pushing String "hi", then setting index 1 to an empty Array yields a
value of size 5 in which index 3 — not index 0, which still holds
Undefined — compares equal to 42, index 1 holds an empty Array, and
index 4 compares equal to "hi". -/
theorem claim_C9 :
    (do
      let s0 ← fromP (Payload.array (List.replicate 3 undefImpl))
      let s1 ← pushVal s0 (CxxVal.cInt 42)
      let s2 ← pushVal s1 (CxxVal.cCharPtr "hi")
      indexAssign s2 (DKey.kInt 1) (CxxVal.cArr [])) =
      .ok (tagArray, Payload.array
        [undefImpl, (tagArray, Payload.array []), undefImpl,
          (tagInteger, Payload.integer 42),
          (tagString, Payload.string "hi")]) ∧
    ([undefImpl, (tagArray, Payload.array []), undefImpl,
        (tagInteger, Payload.integer 42),
        (tagString, Payload.string "hi")] : List (Nat × Payload)).length =
      5 ∧
    (indexConst (tagArray, Payload.array
        [undefImpl, (tagArray, Payload.array []), undefImpl,
          (tagInteger, Payload.integer 42),
          (tagString, Payload.string "hi")]) (DKey.kInt 3) =
        .ok (tagInteger, Payload.integer 42) ∧
      equalsVal (tagInteger, Payload.integer 42) (CxxVal.cInt 42) =
        .ok true) ∧
    (indexConst (tagArray, Payload.array
        [undefImpl, (tagArray, Payload.array []), undefImpl,
          (tagInteger, Payload.integer 42),
          (tagString, Payload.string "hi")]) (DKey.kInt 0) =
        .ok undefImpl ∧
      equalsVal undefImpl (CxxVal.cInt 42) = .ok false) ∧
    indexConst (tagArray, Payload.array
        [undefImpl, (tagArray, Payload.array []), undefImpl,
          (tagInteger, Payload.integer 42),
          (tagString, Payload.string "hi")]) (DKey.kInt 1) =
      .ok (tagArray, Payload.array []) ∧
    (indexConst (tagArray, Payload.array
        [undefImpl, (tagArray, Payload.array []), undefImpl,
          (tagInteger, Payload.integer 42),
          (tagString, Payload.string "hi")]) (DKey.kInt 4) =
        .ok (tagString, Payload.string "hi") ∧
      equalsVal (tagString, Payload.string "hi") (CxxVal.cCharPtr "hi") =
        .ok true) :=
  ⟨rfl, rfl, ⟨rfl, rfl⟩, ⟨rfl, rfl⟩, rfl, ⟨rfl, rfl⟩⟩

/-- C9 shows the original statement false: in the scenario's final value
index 0 still holds Undefined, so it does not compare equal to 42 (the
pushed 42 sits at index 3). -/
theorem claim_C9_counterexample :
    (do
      let s0 ← fromP (Payload.array (List.replicate 3 undefImpl))
      let s1 ← pushVal s0 (CxxVal.cInt 42)
      let s2 ← pushVal s1 (CxxVal.cCharPtr "hi")
      indexAssign s2 (DKey.kInt 1) (CxxVal.cArr [])) =
      .ok (tagArray, Payload.array
        [undefImpl, (tagArray, Payload.array []), undefImpl,
          (tagInteger, Payload.integer 42),
          (tagString, Payload.string "hi")]) ∧
    indexConst (tagArray, Payload.array
        [undefImpl, (tagArray, Payload.array []), undefImpl,
          (tagInteger, Payload.integer 42),
          (tagString, Payload.string "hi")]) (DKey.kInt 0) =
      .ok undefImpl ∧
    equalsVal undefImpl (CxxVal.cInt 42) = .ok false :=
  ⟨rfl, rfl, rfl⟩

/-- C10 (amended): for every well-formed value — any alternative,
arbitrarily nested — `Clone` succeeds and returns a structurally
identical value, and whenever the value's Number payloads are NaN-free
the clone also compares equal to the source; a value containing a NaN
Number clones successfully but does not compare equal to its clone. -/
theorem claim_C10 (v : Impl) (hv : wfI v = true) :
    cloneI v = .ok v ∧
    (nanFreeP v.2 = true → ∀ c, cloneI v = .ok c → dynEq v c = .ok true) := by
  refine ⟨cloneI_id v hv, fun hnf c hc => ?_⟩
  obtain rfl : v = c := by
    have hid := cloneI_id v hv
    rw [hid] at hc
    exact Except.ok.inj hc
  exact dynEq_refl v hv hnf

theorem claim_C10_witness :
    wfI (tagArray, Payload.array [(tagNull, Payload.null)]) = true ∧
    cloneI (tagArray, Payload.array [(tagNull, Payload.null)]) =
      .ok (tagArray, Payload.array [(tagNull, Payload.null)]) :=
  ⟨rfl,
    (claim_C10 (tagArray, Payload.array [(tagNull, Payload.null)]) rfl).1⟩

/-- C10 shows the original statement false: a Number value holding NaN
is cloned successfully into an identical value, yet the clone does not
compare equal to the source under the structural equality operator. -/
theorem claim_C10_counterexample :
    cloneI (tagNumber, Payload.number F64.nan) =
      .ok (tagNumber, Payload.number F64.nan) ∧
    dynEq (tagNumber, Payload.number F64.nan)
      (tagNumber, Payload.number F64.nan) = .ok false := by
  refine ⟨cloneI_id _ rfl, ?_⟩
  simp [dynEq, scalarEq, Payload.asNumber, F64.feq, tagNull, tagBoolean,
    tagInteger, tagNumber, tagString, tagBlob, tagArray, tagObject,
    exc_bind_ok, pure, Except.pure]

end Dynamicxx